import Mathlib

/-!
Verification of the `blakesmith/sapling` repository (two Mercurial extension
modules: `hgext3rd/fbamend.py` and `p4fastimport/p4.py`) against its
natural-language specification.

The development shallowly embeds the Python source into Lean:

* `p4.py`'s pure logic (the marshalled-record reader loop, the per-file
  action classification, and `P4Changelist`'s comparison and hash) is
  translated directly.
* `fbamend.py`'s restack / amend machinery is embedded over an explicit
  repository-state structure `Repo`.  Host facilities that live outside
  this repository (Mercurial's revset queries, visibility filtering, the
  rebase subsystem, `cmdutil.amend`) are modelled from the specification's
  description of them; each such definition carries a doc comment saying
  so.  Revisions are natural numbers (Mercurial's local revision numbers);
  nodes are identified with their revisions.
-/

namespace Sapling

/-! ## Part 1: `p4fastimport/p4.py` -/

/-- A marshalled dictionary record produced by `p4 -G`, modelled as an
association list of string keys and values.  The empty dictionary is the
falsy record that terminates the stream. -/
abbrev P4Dict := List (String × String)

/-- Embedding of `loaditer` (p4.py lines 12-21): read records off the
stream until a falsy record (`if not d: break`) or end of stream
(`EOFError` ends the iteration silently).  The stream is modelled as the
list of records that successive `marshal.load` calls would decode; an
exhausted list is the `EOFError` case. -/
def loaditer : List P4Dict → List P4Dict
  | [] => []
  | d :: rest => if d = [] then [] else d :: loaditer rest

/-- `ACTION_EDIT` (p4.py line 203). -/
def ACTION_EDIT : List String := ["edit", "integrate"]

/-- `ACTION_ADD` (p4.py line 204). -/
def ACTION_ADD : List String := ["add", "branch", "move/add"]

/-- `ACTION_DELETE` (p4.py line 205). -/
def ACTION_DELETE : List String := ["delete", "move/delete"]

/-- `SUPPORTED_ACTIONS = ACTION_EDIT + ACTION_ADD + ACTION_DELETE` (line 206). -/
def SUPPORTED_ACTIONS : List String := ACTION_EDIT ++ ACTION_ADD ++ ACTION_DELETE

/-- Embedding of the loop body of `P4Changelist.files` (p4.py lines
275-285).  The parsed file table `self.parsed['files']` is given as an
association list of (file name, action string) in iteration order; the
per-file revision is irrelevant to the classification.  The result is the
triple `(a, m, r)` of added, modified and removed files; `none` models the
`assert False` hard failure on an unrecognized action. -/
def filesOf : List (String × String) → Option (List String × List String × List String)
  | [] => some ([], [], [])
  | (fname, action) :: rest =>
    match filesOf rest with
    | none => none
    | some (a, m, r) =>
      if action ∈ ACTION_EDIT then some (a, fname :: m, r)
      else if action ∈ ACTION_ADD then some (fname :: a, m, r)
      else if action ∈ ACTION_DELETE then some (a, m, fname :: r)
      else none

/-- `P4Changelist` (p4.py lines 208-230): only the two changelist numbers
matter for comparison and hashing. -/
structure P4Changelist where
  origclnum : Int
  clnum : Int
deriving DecidableEq, Repr

/-- `P4Changelist.cl` property. -/
def P4Changelist.cl (c : P4Changelist) : Int := c.clnum

/-- `P4Changelist.origcl` property. -/
def P4Changelist.origcl (c : P4Changelist) : Int := c.origclnum

/-- Embedding of `P4Changelist.__cmp__` (lines 224-225):
`(self.cl > other.cl) - (self.cl < other.cl)`. -/
def P4Changelist.cmp (a b : P4Changelist) : Int :=
  (if a.cl > b.cl then 1 else 0) - (if a.cl < b.cl then 1 else 0)

/-- Embedding of `P4Changelist.__hash__` (lines 227-230):
`hash((self.origcl, self.cl))`.  Python's hash of a pair of (small)
integers is modelled by the pair itself; the claim under scrutiny is that
the hash depends on both components while comparison depends only on
`cl`. -/
def P4Changelist.hashv (c : P4Changelist) : Int × Int := (c.origcl, c.cl)

/-- C9: feeding `loaditer` a sequence of truthy (nonempty) marshalled
dictionary records followed by a falsy (empty) record and arbitrary
further data yields exactly those records, in order, with nothing after
the terminator; and a stream that simply ends (`EOFError`) also yields
exactly the records read so far. -/
theorem loaditer_roundtrip (rs rest : List P4Dict) (h : ∀ r ∈ rs, r ≠ []) :
    loaditer (rs ++ [] :: rest) = rs ∧ loaditer rs = rs := by
  revert h
  induction rs with
  | nil => intro _; simp [loaditer]
  | cons d ds ih =>
    intro h
    have hd : d ≠ [] := h d (List.mem_cons_self d ds)
    obtain ⟨h1, h2⟩ := ih (fun r hr => h r (List.mem_cons_of_mem d hr))
    refine ⟨?_, ?_⟩
    · simpa [loaditer, hd] using h1
    · simpa [loaditer, hd] using h2

/-- Witness for `loaditer_roundtrip` at a concrete stream. -/
theorem loaditer_roundtrip_witness :
    loaditer ([[("change", "1")], [("change", "2")]] ++ [] :: [[("junk", "z")]]) =
        [[("change", "1")], [("change", "2")]] ∧
      loaditer [[("change", "1")], [("change", "2")]] =
        [[("change", "1")], [("change", "2")]] :=
  loaditer_roundtrip [[("change", "1")], [("change", "2")]] [[("junk", "z")]] (by decide)

/-- C8: for a changelist whose per-file actions are all drawn from
`SUPPORTED_ACTIONS`, the `files` property classifies each file into the
modified (`edit`, `integrate`), added (`add`, `branch`, `move/add`) or
removed (`delete`, `move/delete`) bucket, preserving iteration order; and
the presence of any file with an unsupported action string makes the whole
computation a hard failure (the `assert False` branch, modelled as
`none`). -/
theorem files_classification (fs : List (String × String)) :
    ((∀ p ∈ fs, p.2 ∈ SUPPORTED_ACTIONS) →
      filesOf fs = some ((fs.filter (fun p => decide (p.2 ∈ ACTION_ADD))).map Prod.fst,
                         (fs.filter (fun p => decide (p.2 ∈ ACTION_EDIT))).map Prod.fst,
                         (fs.filter (fun p => decide (p.2 ∈ ACTION_DELETE))).map Prod.fst))
  ∧ (∀ f act, (f, act) ∈ fs → act ∉ SUPPORTED_ACTIONS → filesOf fs = none) := by
  induction fs with
  | nil =>
    refine ⟨fun _ => rfl, ?_⟩
    intro f act hmem
    cases hmem
  | cons p ps ih =>
    obtain ⟨f, act⟩ := p
    obtain ⟨ih1, ih2⟩ := ih
    refine ⟨?_, ?_⟩
    · intro h
      have hact : act ∈ SUPPORTED_ACTIONS := h (f, act) (List.mem_cons_self _ _)
      have heq := ih1 (fun q hq => h q (List.mem_cons_of_mem _ hq))
      simp only [SUPPORTED_ACTIONS, ACTION_EDIT, ACTION_ADD, ACTION_DELETE,
        List.mem_append, List.mem_cons, List.not_mem_nil, or_false] at hact
      rcases hact with ((rfl | rfl) | rfl | rfl | rfl) | rfl | rfl <;>
        simp [filesOf, heq, ACTION_EDIT, ACTION_ADD, ACTION_DELETE]
    · intro f' act' hmem hns
      rcases List.mem_cons.mp hmem with hhead | htail
      · rw [Prod.mk.injEq] at hhead
        obtain ⟨hf, ha⟩ := hhead
        subst ha
        have h1 : act' ∉ ACTION_EDIT := fun hc => hns (by
          simp [SUPPORTED_ACTIONS, List.mem_append, hc])
        have h2 : act' ∉ ACTION_ADD := fun hc => hns (by
          simp [SUPPORTED_ACTIONS, List.mem_append, hc])
        have h3 : act' ∉ ACTION_DELETE := fun hc => hns (by
          simp [SUPPORTED_ACTIONS, List.mem_append, hc])
        cases hps : filesOf ps with
        | none => simp [filesOf, hps]
        | some t =>
          obtain ⟨a, m, r⟩ := t
          simp [filesOf, hps, h1, h2, h3]
      · have := ih2 f' act' htail hns
        simp [filesOf, this]

/-- Witness for `files_classification` at concrete changelists. -/
theorem files_classification_witness :
    filesOf [("a.txt", "edit"), ("b.txt", "add"), ("c.txt", "delete")] =
        some (["b.txt"], ["a.txt"], ["c.txt"]) ∧
      filesOf [("d.txt", "purge")] = none := by
  constructor
  · have h := (files_classification
      [("a.txt", "edit"), ("b.txt", "add"), ("c.txt", "delete")]).1 (by decide)
    simpa using h
  · exact (files_classification [("d.txt", "purge")]).2 "d.txt" "purge"
      (List.mem_cons_self _ _) (by decide)

/-- C10: `P4Changelist` comparison depends only on the renamed changelist
number `cl`, while the hash depends on the pair `(origcl, cl)`; two
values with the same `cl` but different `origcl` compare equal yet hash
differently, so equality does not imply hash equality. -/
theorem p4changelist_cmp_hash :
    (∀ a b : P4Changelist, a.cl = b.cl → P4Changelist.cmp a b = 0)
  ∧ (∀ a b : P4Changelist, a.origcl = b.origcl → a.cl = b.cl →
      P4Changelist.hashv a = P4Changelist.hashv b)
  ∧ P4Changelist.cmp ⟨1, 5⟩ ⟨2, 5⟩ = 0
  ∧ P4Changelist.hashv ⟨1, 5⟩ ≠ P4Changelist.hashv ⟨2, 5⟩ := by
  refine ⟨?_, ?_, by decide, by decide⟩
  · intro a b hcl
    simp [P4Changelist.cmp, hcl]
  · intro a b ho hc
    simp [P4Changelist.hashv, P4Changelist.origcl, P4Changelist.cl] at *
    exact ⟨ho, hc⟩

/-- Witness for `p4changelist_cmp_hash` at concrete changelists. -/
theorem p4changelist_cmp_hash_witness :
    P4Changelist.cmp ⟨7, 42⟩ ⟨9, 42⟩ = 0 :=
  p4changelist_cmp_hash.1 ⟨7, 42⟩ ⟨9, 42⟩ rfl

/-! ## Part 2: `hgext3rd/fbamend.py` — the repository model

The extension operates on Mercurial's in-memory repository.  The model
below captures the slice of that object model the extension reads and
writes.  Revisions are `0, 1, ..., numRevs - 1` in creation order (new
changesets always receive the next number); nodes are identified with
their revisions.  Mercurial facts relied on and modelled here, all from
the spec's description of the host:

* obsolescence markers form a precursor → successor relation; a revision
  is obsolete when it is the precursor of some marker (or was pruned);
* `repo.revs(...)` queries run on the *filtered* repository, i.e. they
  only return visible revisions, in ascending order;
* an obsolete revision stays visible while it is inhibited (the `inhibit`
  extension's keep-alive markers), pinned by a bookmark or by being the
  working-directory parent, or has a visible descendant ("unstable");
  stripped revisions are gone outright;
* Python iteration over sets of small ints (the `childrenof` sets in
  `_getchildrelationships`) is modelled as ascending order.
-/

/-- The repository state: the changeset graph, obsolescence and
inhibition state, bookmarks, working directory, phases and the
configuration bits read by fbamend. -/
structure Repo where
  numRevs : Nat
  parentrevs : Nat → List Nat
  markers : List (Nat × Nat)
  pruned : List Nat
  inhibited : List Nat
  stripped : List Nat
  bookmarks : List (String × Nat)
  activebookmark : Option String
  wdir : Nat
  wparents : Nat
  publicB : Nat → Bool
  histedit : Bool
  userestack : Bool
  createmarkersEnabled : Bool

/-- A revision is obsolete when some marker rewrites it (or it was
pruned). -/
def Repo.obsB (repo : Repo) (r : Nat) : Bool :=
  repo.markers.any (fun m => m.1 == r) || repo.pruned.contains r

/-- The children of `r` in the changelog (all revisions whose parent list
contains `r`), ignoring visibility. -/
def Repo.childrenRaw (repo : Repo) (r : Nat) : List Nat :=
  (List.range repo.numRevs).filter (fun c => (repo.parentrevs c).contains r)

/-- A revision pinned by a bookmark or by being the working-directory
parent is never hidden. -/
def Repo.pinnedB (repo : Repo) (r : Nat) : Bool :=
  repo.bookmarks.any (fun b => b.2 == r) || repo.wdir == r

/-- Modelled from the spec: Mercurial's hidden-revision computation.  A
revision is visible unless stripped, and an obsolete revision is visible
only while inhibited, pinned, or the ancestor of a visible revision.
Fuel-based recursion over the children (children always have larger
revision numbers, so `numRevs` fuel suffices). -/
def Repo.visAux (repo : Repo) : Nat → Nat → Bool
  | 0, _ => false
  | fuel+1, r =>
    !(repo.stripped.contains r) &&
      (!(repo.obsB r) || repo.inhibited.contains r || repo.pinnedB r ||
        (repo.childrenRaw r).any (fun c => repo.visAux fuel c))

/-- Visibility with the standard fuel. -/
def Repo.visibleB (repo : Repo) (r : Nat) : Bool :=
  repo.visAux repo.numRevs r

/-- Direct marker successors of `r`. -/
def Repo.succStep (repo : Repo) (r : Nat) : List Nat :=
  (repo.markers.filter (fun m => m.1 == r)).map (fun m => m.2)

/-- `a` reaches `b` through at least one and at most `fuel` marker
edges. -/
def Repo.markerReach (repo : Repo) : Nat → Nat → Nat → Bool
  | 0, _, _ => false
  | fuel+1, a, b => (repo.succStep a).any (fun c => c == b || repo.markerReach fuel c b)

/-- Transitive marker reachability (a simple path uses each marker at
most once, so `markers.length` fuel is complete). -/
def Repo.obsReach (repo : Repo) (a b : Nat) : Bool :=
  repo.markerReach repo.markers.length a b

/-- `a` is a proper ancestor of `b` through parent edges (parents always
have smaller revision numbers, so `numRevs` fuel suffices). -/
def Repo.ancAux (repo : Repo) : Nat → Nat → Nat → Bool
  | 0, _, _ => false
  | fuel+1, a, b => (repo.parentrevs b).any (fun p => p == a || repo.ancAux fuel a p)

/-- Proper-ancestor test with the standard fuel. -/
def Repo.isAncestor (repo : Repo) (a b : Nat) : Bool :=
  repo.ancAux repo.numRevs a b

/-- Modelled from the spec: the evolve extension's `allprecursors(x)`
revset — all visible transitive precursors of `x` (excluding `x`), in
ascending order. -/
def Repo.revsAllprecursors (repo : Repo) (r : Nat) : List Nat :=
  (List.range repo.numRevs).filter (fun p => repo.visibleB p && repo.obsReach p r)

/-- Modelled from the spec: the evolve extension's `allsuccessors(x)`
revset — all visible transitive successors of `x` (excluding `x`), in
ascending order. -/
def Repo.revsAllsuccessors (repo : Repo) (r : Nat) : List Nat :=
  (List.range repo.numRevs).filter (fun s => repo.visibleB s && repo.obsReach r s)

/-- Modelled from the spec: `repo.revs('descendants(%ld) - %ld', S, S)` —
the visible descendants (including the revisions themselves) of the
revisions in `S`, minus `S`. -/
def Repo.revsDescMinus (repo : Repo) (S : List Nat) : List Nat :=
  (List.range repo.numRevs).filter
    (fun d => repo.visibleB d && S.any (fun s => s == d || repo.isAncestor s d)
      && !(S.contains d))

/-- Modelled from the spec: `repo.revs('(%ld)::', revs)` — the visible
descendants of `revs`, including `revs` themselves. -/
def Repo.descendantSetOf (repo : Repo) (revs : List Nat) : List Nat :=
  (List.range repo.numRevs).filter
    (fun d => repo.visibleB d && revs.any (fun s => s == d || repo.isAncestor s d))

/-- Embedding of `_getchildrelationships` (fbamend.py lines 671-682):
the child-relationship map over all visible descendants of `revs`;
`childrenof p` is the set of members of that descendant set having `p`
among their parents (Python's int-set iteration modelled as ascending
order, which is how the filtered range produces it). -/
def _getchildrelationships (repo : Repo) (revs : List Nat) : Nat → List Nat :=
  fun p => (repo.descendantSetOf revs).filter (fun r => (repo.parentrevs r).contains p)

/-- Embedding of the BFS loop of `_findrestacktargets` (lines 629-664).
Returns the `processed` list (in first-processing = discovery order) and
the accumulated `targets` list.  The queue is a `deque` popped at the
front; children of the processed revision are enqueued sorted; when the
revision has visible precursors but no visible successor and the
precursors have children, those children are enqueued and the revision is
recorded as a target. -/
def bfsAux (repo : Repo) (cmap : Nat → List Nat) :
    Nat → List Nat → List Nat → List Nat → List Nat × List Nat
  | 0, _, processed, targets => (processed, targets)
  | _+1, [], processed, targets => (processed, targets)
  | fuel+1, rev :: queue, processed, targets =>
    if processed.contains rev then
      bfsAux repo cmap fuel queue processed targets
    else
      let processed1 := processed ++ [rev]
      let queue1 := queue ++ List.insertionSort (· ≤ ·) (cmap rev)
      let precursors := repo.revsAllprecursors rev
      let successors := repo.revsAllsuccessors rev
      if !precursors.isEmpty && successors.isEmpty then
        let children := (precursors.map cmap).flatten
        if !children.isEmpty then
          bfsAux repo cmap fuel (queue1 ++ children) processed1 (targets ++ [rev])
        else
          bfsAux repo cmap fuel queue1 processed1 targets
      else
        bfsAux repo cmap fuel queue1 processed1 targets

/-- Ample fuel for the BFS: every revision is processed at most once and
each processing step enqueues at most `numRevs + numRevs * numRevs`
entries, so the queue is popped at most this many times. -/
def bfsFuel (repo : Repo) : Nat :=
  (repo.numRevs + 1) * (repo.numRevs * repo.numRevs + repo.numRevs) + 2

/-- The child-relationship map used by `_findrestacktargets` (line 625):
`_getchildrelationships(repo, repo.revs('%d + allprecursors(%d)', base, base))`. -/
def restackChildrenof (repo : Repo) (base : Nat) : Nat → List Nat :=
  _getchildrelationships repo (base :: repo.revsAllprecursors base)

/-- Embedding of `_findrestacktargets` (lines 618-669): BFS forward from
`base`, collecting targets, returned reversed. -/
def _findrestacktargets (repo : Repo) (base : Nat) : List Nat :=
  (bfsAux repo (restackChildrenof repo base) (bfsFuel repo) [base] [] []).2.reverse

/-- The discovery order of the BFS of `_findrestacktargets`: the order in
which revisions are first processed (= inserted into `processed`). -/
def bfsDiscovery (repo : Repo) (base : Nat) : List Nat :=
  (bfsAux repo (restackChildrenof repo base) (bfsFuel repo) [base] [] []).1

/-- Follows the claim's words (spec side of C2): a revision is a restack
target when it has at least one (visible) precursor, no (visible)
successor, and some precursor has a child in the child-relationship
map. -/
def isRestackTarget (repo : Repo) (cmap : Nat → List Nat) (r : Nat) : Bool :=
  !(repo.revsAllprecursors r).isEmpty && (repo.revsAllsuccessors r).isEmpty &&
    (repo.revsAllprecursors r).any (fun p => !(cmap p).isEmpty)

/-- Some precursor has a child exactly when the concatenation of all the
precursors' child lists is nonempty. -/
theorem any_child_eq_flatten_nonempty (cmap : Nat → List Nat) (ps : List Nat) :
    (ps.any fun p => !(cmap p).isEmpty) = !((ps.map cmap).flatten).isEmpty := by
  induction ps with
  | nil => simp
  | cons p ps ih =>
    cases hcp : cmap p with
    | nil => simpa [List.any_cons, hcp] using ih
    | cons x xs => simp [List.any_cons, hcp]

/-- Invariant of the BFS loop: the processed list only grows, and the
final target list extends the accumulator by exactly those newly
processed revisions satisfying the target condition, in processing
order. -/
theorem bfsAux_spec (repo : Repo) (cmap : Nat → List Nat) :
    ∀ (fuel : Nat) (queue processed targets : List Nat),
      ∃ l, (bfsAux repo cmap fuel queue processed targets).1 = processed ++ l
        ∧ (bfsAux repo cmap fuel queue processed targets).2 =
            targets ++ l.filter (isRestackTarget repo cmap) := by
  intro fuel
  induction fuel with
  | zero =>
    intro queue processed targets
    exact ⟨[], by simp [bfsAux], by simp [bfsAux]⟩
  | succ fuel ih =>
    intro queue processed targets
    cases queue with
    | nil => exact ⟨[], by simp [bfsAux], by simp [bfsAux]⟩
    | cons rev rest =>
      by_cases hmem : rev ∈ processed
      · simpa [bfsAux, hmem] using ih rest processed targets
      · by_cases hc : repo.revsAllprecursors rev ≠ [] ∧ repo.revsAllsuccessors rev = []
        · by_cases hch : ∃ x ∈ repo.revsAllprecursors rev, cmap x ≠ []
          · -- target branch
            have hcr : isRestackTarget repo cmap rev = true := by
              obtain ⟨x, hx, hnx⟩ := hch
              simp only [isRestackTarget, Bool.and_eq_true, Bool.not_eq_true',
                List.isEmpty_iff, List.any_eq_true]
              refine ⟨⟨List.isEmpty_eq_false.mpr hc.1, hc.2⟩, x, hx, ?_⟩
              simp [List.isEmpty_eq_false.mpr hnx]
            obtain ⟨l, h1, h2⟩ := ih
              ((rest ++ List.insertionSort (· ≤ ·) (cmap rev)) ++
                ((repo.revsAllprecursors rev).map cmap).flatten)
              (processed ++ [rev]) (targets ++ [rev])
            refine ⟨rev :: l, ?_, ?_⟩
            · simpa [bfsAux, hmem, hc, hch] using h1
            · simpa [bfsAux, hmem, hc, hch, List.filter_cons, hcr] using h2
          · -- precursors have no children: not a target
            have hcr : isRestackTarget repo cmap rev = false := by
              simp only [not_exists, not_and, not_not] at hch
              simp only [isRestackTarget, List.any_eq_true, Bool.not_eq_true',
                List.isEmpty_iff, Bool.and_eq_false_iff]
              right
              simp only [List.any_eq_false]
              intro x hx
              simp [List.isEmpty_iff, hch x hx]
            obtain ⟨l, h1, h2⟩ := ih
              (rest ++ List.insertionSort (· ≤ ·) (cmap rev))
              (processed ++ [rev]) targets
            refine ⟨rev :: l, ?_, ?_⟩
            · simpa [bfsAux, hmem, hc, hch] using h1
            · simpa [bfsAux, hmem, hc, hch, List.filter_cons, hcr] using h2
        · -- no precursors or a successor exists: not a target
          have hcr : isRestackTarget repo cmap rev = false := by
            rw [not_and_or] at hc
            simp only [isRestackTarget, Bool.and_eq_false_iff]
            rcases hc with hc | hc
            · left
              left
              simp only [not_not] at hc
              simp [List.isEmpty_iff, hc]
            · left
              right
              simp [List.isEmpty_iff]
              intro h
              exact absurd h hc
          obtain ⟨l, h1, h2⟩ := ih
            (rest ++ List.insertionSort (· ≤ ·) (cmap rev))
            (processed ++ [rev]) targets
          refine ⟨rev :: l, ?_, ?_⟩
          · simpa [bfsAux, hmem, hc] using h1
          · simpa [bfsAux, hmem, hc, List.filter_cons, hcr] using h2

/-- C2: `_findrestacktargets` returns exactly the revisions discovered by
the BFS from the base that have at least one precursor, no successor, and
a precursor with a child, and the returned list is the reverse of the
BFS discovery order; the children of each visited revision are enqueued
in ascending revision-number order (the enqueued list is sorted). -/
theorem findrestacktargets_correct (repo : Repo) (base : Nat) :
    _findrestacktargets repo base =
      ((bfsDiscovery repo base).filter
        (isRestackTarget repo (restackChildrenof repo base))).reverse
  ∧ ∀ r : Nat,
      List.Sorted (· ≤ ·)
        (List.insertionSort (· ≤ ·) (restackChildrenof repo base r)) := by
  refine ⟨?_, fun r => List.sorted_insertionSort _ _⟩
  obtain ⟨l, h1, h2⟩ :=
    bfsAux_spec repo (restackChildrenof repo base) (bfsFuel repo) [base] [] []
  unfold _findrestacktargets bfsDiscovery
  rw [h2, h1]
  simp

/-! ## Part 3: `_restackonce`, `restack` and the rebase interface -/

/-- Failures the host rebase subsystem can raise into fbamend's code:
`error.InterventionRequired` (a merge conflict needing manual resolution)
or any other exception. -/
inductive RebaseErr where
  | interventionRequired
  | other
deriving DecidableEq, Repr

/-- The host rebase subsystem as fbamend invokes it: a function of the
current state, the source revisions (`rev` option) and the destination.
Claims about `_restackonce` and `restack` hold for an arbitrary such
function; `rebaseModel` below is a concrete instance modelled from the
spec. -/
abbrev RebaseFn := Repo → List Nat → Nat → Except RebaseErr Repo

/-- Embedding of `_clearpreamend` (lines 692-697): drop every bookmark
whose name ends in `.preamend` and which points at one of the given
revisions. -/
def _clearpreamend (repo : Repo) (revs : List Nat) : Repo :=
  { repo with bookmarks :=
      repo.bookmarks.filter fun b => !(revs.contains b.2 && b.1.endsWith ".preamend") }

/-- Embedding of `_deinhibit` (lines 699-702): remove the inhibition
markers on the given revisions (the inhibit extension is loaded in the
deployment this module targets). -/
def _deinhibit (repo : Repo) (revs : List Nat) : Repo :=
  { repo with inhibited := repo.inhibited.filter (fun r => !(revs.contains r)) }

/-- Embedding of `_restackonce` (lines 589-616): compute the visible
descendants of the precursors of `rev` minus those precursors; if empty,
do nothing; otherwise rebase them onto `rev` and then clear preamend
bookmarks and inhibition markers on the precursors.  The returned option
records the rebase invocation (source list and destination) that was
performed, if any. -/
def _restackonce (rebase : RebaseFn) (repo : Repo) (rev : Nat) :
    Except RebaseErr (Option (List Nat × Nat) × Repo) :=
  let allprecursors := repo.revsAllprecursors rev
  let descendants := repo.revsDescMinus allprecursors
  if descendants.isEmpty then .ok (none, repo)
  else
    match rebase repo descendants rev with
    | .error e => .error e
    | .ok repo1 =>
      .ok (some (descendants, rev),
        _deinhibit (_clearpreamend repo1 allprecursors) allprecursors)

/-- The outcome of a `restack` run: the final state, the exception that
escaped (if any), whether the enclosing transaction was committed
(`tr.close()`) rather than rolled back, and the list of targets that were
fully processed. -/
structure RunResult where
  state : Repo
  err : Option RebaseErr
  txClosed : Bool
  processed : List Nat

/-- The `for rev in targets` loop of `restack` (lines 569-577), run
inside `with repo.transaction('restack')`: on success the with-block
commits; an `InterventionRequired` from a rebase is caught, the
transaction is closed (committing the mutations performed so far) and the
exception re-raised; any other exception escapes the with-block, which
rolls the transaction back to `repo0`, the state at transaction start. -/
def restackLoop (rebase : RebaseFn) (repo0 : Repo) : Repo → List Nat → RunResult
  | repo, [] => ⟨repo, none, true, []⟩
  | repo, rev :: rest =>
    match _restackonce rebase repo rev with
    | .error .interventionRequired => ⟨repo, some .interventionRequired, true, []⟩
    | .error .other => ⟨repo0, some .other, false, []⟩
    | .ok (_, repo1) =>
      let r := restackLoop rebase repo0 repo1 rest
      { r with processed := rev :: r.processed }

/-- Successively apply `_restackonce` for a list of targets, keeping the
state reached so far if a step fails (the mutations committed before the
failing step). -/
def applyTargets (rebase : RebaseFn) : Repo → List Nat → Repo
  | repo, [] => repo
  | repo, rev :: rest =>
    match _restackonce rebase repo rev with
    | .error _ => repo
    | .ok (_, repo1) => applyTargets rebase repo1 rest

/-- Embedding of the stack-base computation of `restack` (line 565):
`repo.revs('::. & draft()').first()` — the smallest visible non-public
ancestor (inclusive) of the working-directory parent. -/
def stackBase (repo : Repo) : Option Nat :=
  ((List.range repo.numRevs).filter
    (fun a => repo.visibleB a && (a == repo.wdir || repo.isAncestor a repo.wdir)
      && !(repo.publicB a))).head?

/-- Embedding of `_latest` (lines 684-690): the largest visible successor
of `rev`, or `rev` itself if it has none. -/
def _latest (repo : Repo) (rev : Nat) : Nat :=
  match (repo.revsAllsuccessors rev).getLast? with
  | some l => l
  | none => rev

/-- The target list `restack` computes before its transaction (lines
565-567). -/
def restackTargets (repo : Repo) : List Nat :=
  let latest :=
    match stackBase repo with
    | some b => _latest repo b
    | none => repo.wdir
  _findrestacktargets repo latest

/-- Embedding of `restack` (lines 548-587).  The `checkunfinished` /
`bailifchanged` preconditions are modelled as satisfied.  After the loop
(when no exception escaped, still inside the transaction) the working
directory is updated to the largest visible successor of the current
changeset, if it has one. -/
def restack (rebase : RebaseFn) (repo : Repo) : RunResult :=
  let lr := restackLoop rebase repo repo (restackTargets repo)
  match lr.err with
  | some _ => lr
  | none =>
    match (lr.state.revsAllsuccessors lr.state.wdir).getLast? with
    | some s => { lr with state := { lr.state with wdir := s } }
    | none => lr

/-! ## Part 4: `amend` and `fixupamend` -/

/-- The abort errors and propagated exceptions the amend/fixup slice can
raise. -/
inductive AbortErr where
  | histeditInProgress
  | interactiveExclusive
  | cannotAmendPublic
  | cannotAmendMerge
  | noPreamendBookmark
  | preamendAmbiguous
  | rebaseIntervention
  | rebaseOther
deriving DecidableEq, Repr

/-- The outcome of an `amend`/`fixupamend` run: final state, the
exception raised (if any; an exception raised before any mutation leaves
`repo` equal to the input state), whether the children-left-behind
warning was emitted, and whether a transaction was committed. -/
structure AmendRes where
  repo : Repo
  err : Option AbortErr
  warned : Bool
  txClosed : Bool

/-- Options of the `amend` command relevant to the embedded slice. -/
structure AmendOpts where
  rebase : Bool
  fixup : Bool
  interactive : Bool
deriving DecidableEq, Repr

/-- Model of `hex(node)[:12]`: nodes are revision numbers in this model,
so the decimal string of the revision stands in for the short hex of the
node; all that matters is that distinct nodes give distinct strings. -/
def hexShort (node : Nat) : String := toString node

/-- Embedding of `_preamendname` (lines 742-747): the active bookmark
name, or the short node string when no bookmark is active, suffixed with
`.preamend`. -/
def _preamendname (repo : Repo) (node : Nat) : String :=
  (match repo.activebookmark with
   | some name => name
   | none => hexShort node) ++ ".preamend"

/-- `name in repo._bookmarks` / `repo._bookmarks[name]`. -/
def lookupBookmark (repo : Repo) (name : String) : Option Nat :=
  (repo.bookmarks.find? fun b => b.1 == name).map fun b => b.2

/-- `repo._bookmarks[name] = rev` (replace or add). -/
def setBookmark (repo : Repo) (name : String) (rev : Nat) : Repo :=
  { repo with bookmarks :=
      (repo.bookmarks.filter fun b => !(b.1 == name)) ++ [(name, rev)] }

/-- `del repo._bookmarks[name]` / `repo._bookmarks.pop(name)`. -/
def delBookmark (repo : Repo) (name : String) : Repo :=
  { repo with bookmarks := repo.bookmarks.filter fun b => !(b.1 == name) }

/-- The visible children of a revision (`ctx.children()`). -/
def Repo.visibleChildren (repo : Repo) (r : Nat) : List Nat :=
  (repo.childrenRaw r).filter fun c => repo.visibleB c

/-- The visible proper descendants of a revision (`ctx.descendants()`),
ascending — the `opts['rev']` list of `fixupamend` (line 379). -/
def Repo.ctxDescendants (repo : Repo) (r : Nat) : List Nat :=
  (List.range repo.numRevs).filter fun d => repo.visibleB d && repo.isAncestor r d

/-- The names of the bookmarks on a revision (`ctx.bookmarks()`). -/
def Repo.nodeBookmarks (repo : Repo) (r : Nat) : List String :=
  (repo.bookmarks.filter fun b => b.2 == r).map fun b => b.1

/-- Modelled from the spec: marking a changeset obsolete with no
successor (`obsolete.createmarkers(repo, [(old, ())])`, a prune
marker). -/
def addPrune (repo : Repo) (r : Nat) : Repo :=
  { repo with pruned := repo.pruned ++ [r] }

/-- Modelled from the spec: `repair.strip` — the revision is removed from
the repository outright. -/
def stripRev (repo : Repo) (r : Nat) : Repo :=
  { repo with stripped := repo.stripped ++ [r] }

/-- Embedding of `fixupamend` (lines 337-405).  In obsolescence mode
(`fbamend.userestack`) it runs `_restackonce` on the current changeset
inside a transaction, closing the transaction and re-raising on
`InterventionRequired`.  In bookmark mode it locates the
`<name>.preamend` recovery bookmark, aborts (before any mutation) when it
is missing or points at the current changeset, and otherwise rebases the
recovery point's descendants onto the current changeset, removes the
recovery point's bookmarks, retires it (prune marker, or strip when
markers are disabled) and updates to the current changeset. -/
def fixupamendM (rebase : RebaseFn) (repo : Repo) : AmendRes :=
  let current := repo.wdir
  if repo.userestack then
    match _restackonce rebase repo current with
    | .error .interventionRequired => ⟨repo, some .rebaseIntervention, false, true⟩
    | .error .other => ⟨repo, some .rebaseOther, false, false⟩
    | .ok (_, repo1) => ⟨repo1, none, false, true⟩
  else
    let preamendname := _preamendname repo current
    match lookupBookmark repo preamendname with
    | none => ⟨repo, some .noPreamendBookmark, false, false⟩
    | some old =>
      if old = current then ⟨repo, some .preamendAmbiguous, false, false⟩
      else
        let oldbookmarks := repo.nodeBookmarks old
        let revlist := repo.ctxDescendants old
        let afterRebase :=
          if !revlist.isEmpty then rebase repo revlist current else .ok repo
        match afterRebase with
        | .error .interventionRequired => ⟨repo, some .rebaseIntervention, false, false⟩
        | .error .other => ⟨repo, some .rebaseOther, false, false⟩
        | .ok repo1 =>
          let repo2 :=
            { repo1 with bookmarks :=
                repo1.bookmarks.filter fun b => !(oldbookmarks.contains b.1) }
          let repo3 :=
            if repo.createmarkersEnabled then
              if !(repo2.obsB old) then addPrune repo2 old else repo2
            else
              stripRev repo2 old
          ⟨{ repo3 with wdir := current }, none, false, true⟩

/-- Modelled from the spec: `cmdutil.amend` — replace the current
changeset by a new one carrying the working copy's content.  The new
changeset gets the next revision number, the same parents as the old one,
and draft phase; an obsolescence marker records old → new, the inhibit
extension keeps the old changeset visible, and the working directory
moves to the new changeset. -/
def commitAmendModel (repo : Repo) : Repo :=
  let old := repo.wdir
  let node := repo.numRevs
  { repo with
    numRevs := repo.numRevs + 1
    parentrevs := fun r => if r == node then repo.parentrevs old else repo.parentrevs r
    markers := repo.markers ++ [(old, node)]
    inhibited := repo.inhibited ++ [old]
    publicB := fun r => if r == node then false else repo.publicB r
    wdir := node }

/-- `for bm in oldbookmarks: newbookmarks[bm] = node` (lines 313-314):
move the bookmarks of the pre-amend changeset to the new node. -/
def moveBookmarksTo (repo : Repo) (old belownew : Nat) : Repo :=
  { repo with bookmarks :=
      repo.bookmarks.map fun b => if b.2 == old then (b.1, belownew) else b }

/-- Embedding of `amend` (lines 199-335): the check pipeline (histedit +
`--rebase`, `--interactive` + `--rebase`/`--fixup`, `--fixup` dispatch to
`fixupamend`, public changeset, merge in progress), the no-op path when
the commit content is unchanged (`nothing changed`), and otherwise the
commit (`cmdutil.amend`, modelled by `commitAmendModel`), the
children-left-behind warning, moving bookmarks to the new node, the
preamend recovery-bookmark bookkeeping, the transaction commit and the
optional `--rebase` fixup pass.  `nothingChanged` models whether
`cmdutil.amend` returns the old node (no content change); the pure
`--interactive` path re-dispatches through `cmdutil.dorecord`, outside
this slice. -/
def amendM (rebase : RebaseFn) (opts : AmendOpts) (nothingChanged : Bool)
    (repo : Repo) : AmendRes :=
  if opts.rebase && repo.histedit then ⟨repo, some .histeditInProgress, false, false⟩
  else if opts.interactive && (opts.rebase || opts.fixup) then
    ⟨repo, some .interactiveExclusive, false, false⟩
  else if opts.fixup then fixupamendM rebase repo
  else if repo.publicB repo.wdir then ⟨repo, some .cannotAmendPublic, false, false⟩
  else if 1 < repo.wparents then ⟨repo, some .cannotAmendMerge, false, false⟩
  else if opts.interactive then ⟨repo, none, false, false⟩
  else
    let old := repo.wdir
    let haschildren := !(repo.visibleChildren old).isEmpty
    let node := repo.numRevs
    if nothingChanged then ⟨repo, none, false, false⟩
    else
      let warned := haschildren && !opts.rebase
      let repo2 := moveBookmarksTo (commitAmendModel repo) old node
      let repo3 :=
        if !repo.histedit && !repo.userestack then
          let preamendname := _preamendname repo2 node
          if haschildren then setBookmark repo2 preamendname old
          else if repo.activebookmark.isNone then
            let oldname := _preamendname repo2 old
            match lookupBookmark repo2 oldname with
            | some v => delBookmark (setBookmark repo2 preamendname v) oldname
            | none => repo2
          else repo2
        else repo2
      if opts.rebase && haschildren then
        let fres := fixupamendM rebase repo3
        { fres with warned := warned || fres.warned, txClosed := true }
      else ⟨repo3, none, warned, true⟩

/-! ## Theorems about `_restackonce` and `restack` -/

/-- `List.contains` in terms of membership. -/
theorem contains_true_iff {α : Type} [BEq α] [LawfulBEq α] (l : List α) (a : α) :
    (l.contains a = true) ↔ a ∈ l :=
  List.elem_iff

/-- Negative form of `contains_true_iff`. -/
theorem contains_false_iff {α : Type} [BEq α] [LawfulBEq α] (l : List α) (a : α) :
    (l.contains a = false) ↔ a ∉ l := by
  rw [← Bool.not_eq_true]
  exact not_congr List.elem_iff

/-- C3: `_restackonce` performs no rebase and leaves the state untouched
when `descendants(allprecursors(rev)) - allprecursors(rev)` is empty; the
computed source set contains exactly the visible descendants of the
precursors of `rev` minus those precursors; and on a successful rebase
the invocation uses exactly that source set with destination `rev`, after
which the preamend bookmarks and the inhibition markers on the precursors
are removed. -/
theorem restackonce_correct (rebase : RebaseFn) (repo : Repo) (rev : Nat) :
    (repo.revsDescMinus (repo.revsAllprecursors rev) = [] →
      _restackonce rebase repo rev = .ok (none, repo))
  ∧ (∀ d : Nat, d ∈ repo.revsDescMinus (repo.revsAllprecursors rev) ↔
      (d < repo.numRevs ∧ repo.visibleB d = true
        ∧ (∃ p ∈ repo.revsAllprecursors rev, p = d ∨ repo.isAncestor p d = true)
        ∧ d ∉ repo.revsAllprecursors rev))
  ∧ (∀ repo1, repo.revsDescMinus (repo.revsAllprecursors rev) ≠ [] →
      rebase repo (repo.revsDescMinus (repo.revsAllprecursors rev)) rev = .ok repo1 →
        _restackonce rebase repo rev =
            .ok (some (repo.revsDescMinus (repo.revsAllprecursors rev), rev),
              _deinhibit (_clearpreamend repo1 (repo.revsAllprecursors rev))
                (repo.revsAllprecursors rev))
        ∧ (∀ b, b ∈ (_deinhibit (_clearpreamend repo1 (repo.revsAllprecursors rev))
                (repo.revsAllprecursors rev)).bookmarks ↔
            (b ∈ repo1.bookmarks ∧
              ¬(b.2 ∈ repo.revsAllprecursors rev ∧ b.1.endsWith ".preamend" = true)))
        ∧ (∀ i, i ∈ (_deinhibit (_clearpreamend repo1 (repo.revsAllprecursors rev))
                (repo.revsAllprecursors rev)).inhibited ↔
            (i ∈ repo1.inhibited ∧ i ∉ repo.revsAllprecursors rev))) := by
  refine ⟨?_, ?_, ?_⟩
  · intro h
    simp [_restackonce, h]
  · intro d
    simp only [Repo.revsDescMinus, List.mem_filter, List.mem_range, Bool.and_eq_true,
      List.any_eq_true, Bool.or_eq_true, beq_iff_eq, Bool.not_eq_true',
      contains_false_iff]
    aesop
  · intro repo1 hne hok
    refine ⟨?_, ?_, ?_⟩
    · simp [_restackonce, List.isEmpty_eq_false.mpr hne, hok]
    · intro b
      simp only [_deinhibit, _clearpreamend, List.mem_filter, Bool.not_eq_true',
        Bool.and_eq_false_iff, contains_false_iff, Bool.not_eq_true]
      constructor
      · rintro ⟨hb, hcase⟩
        refine ⟨hb, ?_⟩
        rintro ⟨hmem, hsuf⟩
        rcases hcase with hc | hc
        · exact hc hmem
        · rw [hc] at hsuf
          cases hsuf
      · rintro ⟨hb, hno⟩
        refine ⟨hb, ?_⟩
        by_cases hm : b.2 ∈ repo.revsAllprecursors rev
        · right
          cases hsw : b.1.endsWith ".preamend" with
          | true => exact absurd ⟨hm, hsw⟩ hno
          | false => rfl
        · left
          exact hm
    · intro i
      simp only [_deinhibit, _clearpreamend, List.mem_filter, Bool.not_eq_true',
        contains_false_iff]

/-- Witness for `restackonce_correct`: a two-revision repository in which
revision 1 is the successor of revision 0 and revision 0 has no other
descendants (empty source set, no-op), and a three-revision repository in
which revision 2 must be rebased. -/
def rw1 : Repo :=
  { numRevs := 2, parentrevs := fun _ => [], markers := [(0, 1)], pruned := [],
    inhibited := [0], stripped := [], bookmarks := [], activebookmark := none,
    wdir := 1, wparents := 1, publicB := fun _ => false, histedit := false,
    userestack := false, createmarkersEnabled := true }

/-- A three-revision repository: stack `0 ← 2`, with 0 obsoleted by 1. -/
def rw2 : Repo :=
  { numRevs := 3, parentrevs := fun r => if r == 2 then [0] else [], markers := [(0, 1)],
    pruned := [], inhibited := [0], stripped := [], bookmarks := [],
    activebookmark := none, wdir := 1, wparents := 1, publicB := fun _ => false,
    histedit := false, userestack := false, createmarkersEnabled := true }

/-- The always-succeeding identity rebase function (used to exercise the
control flow of callers in witnesses). -/
def rbOk : RebaseFn := fun repo _ _ => .ok repo

/-- The always-conflicting rebase function. -/
def rbConflict : RebaseFn := fun _ _ _ => .error .interventionRequired

/-- Witness for `restackonce_correct` at concrete repositories. -/
theorem restackonce_correct_witness :
    _restackonce rbOk rw1 1 = .ok (none, rw1)
    ∧ _restackonce rbOk rw2 1 =
        .ok (some ([2], 1), _deinhibit (_clearpreamend rw2 [0]) [0]) := by
  constructor
  · exact (restackonce_correct rbOk rw1 1).1 (by rfl)
  · have h := ((restackonce_correct rbOk rw2 1).2.2 rw2 (by decide) (by rfl)).1
    have hd : rw2.revsDescMinus (rw2.revsAllprecursors 1) = [2] := by rfl
    have hp : rw2.revsAllprecursors 1 = [0] := by rfl
    rw [hd, hp] at h
    exact h

/-- Invariant of the restack loop: when an `InterventionRequired` escapes,
the transaction was committed, the processed targets are a strict prefix
of the target list, and the final state is the one reached by the
successfully processed prefix. -/
theorem restackLoop_intervention (rebase : RebaseFn) (repo0 : Repo) :
    ∀ (ts : List Nat) (repo : Repo),
      (restackLoop rebase repo0 repo ts).err = some .interventionRequired →
      (restackLoop rebase repo0 repo ts).txClosed = true
      ∧ ∃ k, k < ts.length
          ∧ (restackLoop rebase repo0 repo ts).processed = ts.take k
          ∧ (restackLoop rebase repo0 repo ts).state = applyTargets rebase repo (ts.take k) := by
  intro ts
  induction ts with
  | nil =>
    intro repo h
    simp [restackLoop] at h
  | cons rev rest ih =>
    intro repo h
    cases hstep : _restackonce rebase repo rev with
    | error e =>
      cases e with
      | interventionRequired =>
        refine ⟨by simp [restackLoop, hstep], 0, by simp, ?_, ?_⟩
        · simp [restackLoop, hstep]
        · simp [restackLoop, hstep, applyTargets]
      | other =>
        rw [restackLoop, hstep] at h
        simp at h
    | ok pr =>
      obtain ⟨inv, repo1⟩ := pr
      rw [restackLoop, hstep] at h
      simp only at h
      obtain ⟨htx, k, hk, hproc, hstate⟩ := ih repo1 h
      refine ⟨?_, k + 1, by simpa using hk, ?_, ?_⟩
      · simpa [restackLoop, hstep] using htx
      · simp only [restackLoop, hstep, List.take_succ_cons]
        simpa using hproc
      · simp only [restackLoop, hstep, List.take_succ_cons, applyTargets]
        simpa using hstate

/-- `restack` propagates the loop's exception, and coincides with the
loop when the loop raised one (the final working-directory update only
happens on success). -/
theorem restack_cases (rebase : RebaseFn) (repo : Repo) :
    (restack rebase repo).err = (restackLoop rebase repo repo (restackTargets repo)).err
    ∧ ((restackLoop rebase repo repo (restackTargets repo)).err ≠ none →
        restack rebase repo = restackLoop rebase repo repo (restackTargets repo)) := by
  unfold restack
  cases hle : (restackLoop rebase repo repo (restackTargets repo)).err with
  | some e => simp [hle]
  | none =>
    simp only [hle]
    cases hgl : ((restackLoop rebase repo repo (restackTargets repo)).state.revsAllsuccessors
        (restackLoop rebase repo repo (restackTargets repo)).state.wdir).getLast? with
    | some s => simp [hgl, hle]
    | none => simp [hgl, hle]

/-- C4: when a rebase step of `restack` raises `InterventionRequired`,
the enclosing transaction is committed (not rolled back), the exception
propagates, no further targets are processed (the processed list is a
strict prefix of the target list) and the final state is exactly the
state reached by the targets processed before the conflict; likewise
`fixupamend` in obsolescence mode commits its transaction and propagates
the condition. -/
theorem restack_intervention (rebase : RebaseFn) (repo : Repo) :
    ((restack rebase repo).err = some .interventionRequired →
      (restack rebase repo).txClosed = true
      ∧ ∃ k, k < (restackTargets repo).length
          ∧ (restack rebase repo).processed = (restackTargets repo).take k
          ∧ (restack rebase repo).state =
              applyTargets rebase repo ((restackTargets repo).take k))
  ∧ (repo.userestack = true →
      _restackonce rebase repo repo.wdir = .error .interventionRequired →
        (fixupamendM rebase repo).err = some .rebaseIntervention
        ∧ (fixupamendM rebase repo).txClosed = true
        ∧ (fixupamendM rebase repo).repo = repo) := by
  constructor
  · intro h
    obtain ⟨herr, heq⟩ := restack_cases rebase repo
    rw [herr] at h
    rw [heq (by rw [h]; simp)]
    exact restackLoop_intervention rebase repo (restackTargets repo) repo h
  · intro hu hstep
    simp [fixupamendM, hu, hstep]

/-- Witness for `restack_intervention` with an always-conflicting rebase
on a repository with one restack target, and for the `fixupamend`
conjunct in obsolescence mode. -/
def rw3 : Repo :=
  { numRevs := 3, parentrevs := fun r => if r == 2 then [0] else [], markers := [(0, 1)],
    pruned := [], inhibited := [0], stripped := [], bookmarks := [],
    activebookmark := none, wdir := 1, wparents := 1, publicB := fun _ => false,
    histedit := false, userestack := true, createmarkersEnabled := true }

/-- Witness for `restack_intervention` at a concrete repository. -/
theorem restack_intervention_witness :
    ((restack rbConflict rw3).txClosed = true
      ∧ ∃ k, k < (restackTargets rw3).length
          ∧ (restack rbConflict rw3).processed = (restackTargets rw3).take k
          ∧ (restack rbConflict rw3).state =
              applyTargets rbConflict rw3 ((restackTargets rw3).take k))
    ∧ ((fixupamendM rbConflict rw3).err = some .rebaseIntervention
        ∧ (fixupamendM rbConflict rw3).txClosed = true
        ∧ (fixupamendM rbConflict rw3).repo = rw3) :=
  ⟨(restack_intervention rbConflict rw3).1 (by rfl),
   (restack_intervention rbConflict rw3).2 rfl (by rfl)⟩

/-! ## Theorems about `amend` and `fixupamend` -/

/-- C7: in bookmark mode, when the preamend recovery bookmark exists and
points at the current changeset, `fixupamend` aborts with the ambiguity
error before performing any mutation: the returned state is the input
state, no transaction was committed and no warning emitted. -/
theorem fixupamend_ambiguous (rebase : RebaseFn) (repo : Repo)
    (hmode : repo.userestack = false)
    (hbk : lookupBookmark repo (_preamendname repo repo.wdir) = some repo.wdir) :
    fixupamendM rebase repo = ⟨repo, some .preamendAmbiguous, false, false⟩ := by
  simp [fixupamendM, hmode, hbk]

/-- Concrete repository for the `fixupamend` ambiguity witness: the
active bookmark is `feature`, and `feature.preamend` points at the
current changeset. -/
def rw4 : Repo :=
  { numRevs := 2, parentrevs := fun _ => [], markers := [], pruned := [],
    inhibited := [], stripped := [], bookmarks := [("feature.preamend", 0)],
    activebookmark := some "feature", wdir := 0, wparents := 1,
    publicB := fun _ => false, histedit := false, userestack := false,
    createmarkersEnabled := true }

/-- Witness for `fixupamend_ambiguous`. -/
theorem fixupamend_ambiguous_witness :
    fixupamendM rbOk rw4 = ⟨rw4, some .preamendAmbiguous, false, false⟩ :=
  fixupamend_ambiguous rbOk rw4 rfl (by rfl)

/-- Concrete repository refuting C5 as stated: the current changeset is
public, but `amend --fixup` neither aborts nor leaves the state
untouched. -/
def c5repo : Repo :=
  { numRevs := 2, parentrevs := fun _ => [], markers := [], pruned := [],
    inhibited := [], stripped := [], bookmarks := [("bm.preamend", 1)],
    activebookmark := some "bm", wdir := 0, wparents := 1,
    publicB := fun _ => true, histedit := false, userestack := false,
    createmarkersEnabled := true }

/-- C5 counterexample: invoking `amend` with `--fixup` while the current
changeset is public does not abort — the run succeeds and mutates the
repository (the recovery bookmark is removed and the recovery point
pruned), because the `--fixup` dispatch to `fixupamend` happens before
the public and merge checks. -/
theorem amend_public_fixup_no_abort :
    c5repo.publicB c5repo.wdir = true
    ∧ (amendM rbOk ⟨false, true, false⟩ false c5repo).err = none
    ∧ (amendM rbOk ⟨false, true, false⟩ false c5repo).repo.bookmarks = []
    ∧ (amendM rbOk ⟨false, true, false⟩ false c5repo).repo.pruned = [1] :=
  ⟨rfl, by rfl, by rfl, by rfl⟩

/-- C5 amended: `amend` aborts with an abort error, before any mutation
(the returned state is the input state), whenever `--interactive` is
combined with `--rebase` or `--fixup`; and, when `--fixup` is not passed,
whenever the current changeset is public or the working copy has more
than one parent.  (As stated the claim fails because `--fixup` dispatches
to `fixupamend` before the public and merge checks.) -/
theorem amend_precondition_aborts (rebase : RebaseFn) (opts : AmendOpts)
    (nc : Bool) (repo : Repo) :
    (opts.interactive = true → opts.rebase = true ∨ opts.fixup = true →
      ∃ e, amendM rebase opts nc repo = ⟨repo, some e, false, false⟩)
  ∧ (opts.fixup = false → repo.publicB repo.wdir = true →
      ∃ e, amendM rebase opts nc repo = ⟨repo, some e, false, false⟩)
  ∧ (opts.fixup = false → 1 < repo.wparents →
      ∃ e, amendM rebase opts nc repo = ⟨repo, some e, false, false⟩) := by
  refine ⟨?_, ?_, ?_⟩
  · intro hi hrf
    by_cases h1 : opts.rebase && repo.histedit
    · exact ⟨.histeditInProgress, by simp [amendM, h1]⟩
    · refine ⟨.interactiveExclusive, ?_⟩
      have h2 : (opts.interactive && (opts.rebase || opts.fixup)) = true := by
        rcases hrf with h | h <;> simp [hi, h]
      simp [amendM, h1, h2]
  · intro hf hp
    by_cases h1 : opts.rebase && repo.histedit
    · exact ⟨.histeditInProgress, by simp [amendM, h1]⟩
    · rw [Bool.not_eq_true] at h1
      by_cases h2 : opts.interactive && (opts.rebase || opts.fixup)
      · exact ⟨.interactiveExclusive, by simp [amendM, h1, h2]⟩
      · rw [Bool.not_eq_true] at h2
        have h2x : (opts.interactive && opts.rebase) = false := by
          rw [hf] at h2
          simpa using h2
        exact ⟨.cannotAmendPublic, by simp [amendM, h1, h2, h2x, hf, hp]⟩
  · intro hf hw
    by_cases h1 : opts.rebase && repo.histedit
    · exact ⟨.histeditInProgress, by simp [amendM, h1]⟩
    · rw [Bool.not_eq_true] at h1
      by_cases h2 : opts.interactive && (opts.rebase || opts.fixup)
      · exact ⟨.interactiveExclusive, by simp [amendM, h1, h2]⟩
      · rw [Bool.not_eq_true] at h2
        have h2x : (opts.interactive && opts.rebase) = false := by
          rw [hf] at h2
          simpa using h2
        by_cases h3 : repo.publicB repo.wdir
        · exact ⟨.cannotAmendPublic, by simp [amendM, h1, h2, h2x, hf, h3]⟩
        · rw [Bool.not_eq_true] at h3
          exact ⟨.cannotAmendMerge, by simp [amendM, h1, h2, h2x, hf, h3, hw]⟩

/-- Witness for `amend_precondition_aborts`: aborting on a public
changeset without `--fixup`, and on `--interactive` plus `--fixup`. -/
theorem amend_precondition_aborts_witness :
    (∃ e, amendM rbOk ⟨false, false, false⟩ false c5repo = ⟨c5repo, some e, false, false⟩)
    ∧ (∃ e, amendM rbOk ⟨false, true, true⟩ false c5repo = ⟨c5repo, some e, false, false⟩) :=
  ⟨(amend_precondition_aborts rbOk ⟨false, false, false⟩ false c5repo).2.1 rfl rfl,
   (amend_precondition_aborts rbOk ⟨false, true, true⟩ false c5repo).1 rfl (Or.inr rfl)⟩

/-- Concrete repository refuting C6 as stated: `fbamend.userestack` is
enabled and the current changeset has a child. -/
def c6repo : Repo :=
  { numRevs := 2, parentrevs := fun r => if r == 1 then [0] else [], markers := [],
    pruned := [], inhibited := [], stripped := [], bookmarks := [],
    activebookmark := some "bm", wdir := 0, wparents := 1,
    publicB := fun _ => false, histedit := false, userestack := true,
    createmarkersEnabled := true }

/-- C6 counterexample: with `fbamend.userestack` enabled, a successful
amend of a changeset with children and without `--rebase` emits the
warning but creates NO recovery bookmark — the preamend bookmark is only
created when neither a histedit is in progress nor `userestack` is
set. -/
theorem amend_userestack_no_preamend_bookmark :
    (amendM rbOk ⟨false, false, false⟩ false c6repo).err = none
    ∧ (amendM rbOk ⟨false, false, false⟩ false c6repo).warned = true
    ∧ (amendM rbOk ⟨false, false, false⟩ false c6repo).repo.bookmarks = [] :=
  ⟨by rfl, by rfl, by rfl⟩

/-- Looking up a freshly set bookmark finds it. -/
theorem lookup_setBookmark (repo : Repo) (name : String) (rev : Nat) :
    lookupBookmark (setBookmark repo name rev) name = some rev := by
  have hnone : (repo.bookmarks.filter fun b => !(b.1 == name)).find?
      (fun b => b.1 == name) = none := by
    rw [List.find?_eq_none]
    intro x hx
    have hxf := (List.mem_filter.mp hx).2
    simp only [Bool.not_eq_true'] at hxf
    simp [hxf]
  simp [lookupBookmark, setBookmark, List.find?_append, hnone]

/-- C6 amended: a successful amend, without `--rebase`, of a changeset
with children — provided no histedit is in progress and
`fbamend.userestack` is disabled — leaves every existing revision's
parent pointers (in particular the children's) unchanged, emits the
children-left-behind warning, and creates the recovery bookmark
`<activebookmark>.preamend` (or `<shortnode>.preamend` of the new node
when no bookmark is active) pointing at the pre-amend changeset. -/
theorem amend_children_warning_bookmark (rebase : RebaseFn) (repo : Repo)
    (hh : repo.histedit = false) (hu : repo.userestack = false)
    (hpub : repo.publicB repo.wdir = false) (hwp : ¬ 1 < repo.wparents)
    (hch : (repo.visibleChildren repo.wdir).isEmpty = false) :
    (amendM rebase ⟨false, false, false⟩ false repo).err = none
    ∧ (amendM rebase ⟨false, false, false⟩ false repo).warned = true
    ∧ lookupBookmark (amendM rebase ⟨false, false, false⟩ false repo).repo
        (_preamendname repo repo.numRevs) = some repo.wdir
    ∧ ∀ r, r < repo.numRevs →
        (amendM rebase ⟨false, false, false⟩ false repo).repo.parentrevs r =
          repo.parentrevs r := by
  have hres : amendM rebase ⟨false, false, false⟩ false repo =
      ⟨setBookmark (moveBookmarksTo (commitAmendModel repo) repo.wdir repo.numRevs)
        (_preamendname (moveBookmarksTo (commitAmendModel repo) repo.wdir repo.numRevs)
          repo.numRevs) repo.wdir, none, true, true⟩ := by
    simp [amendM, hh, hu, hpub, hwp, hch]
  rw [hres]
  refine ⟨rfl, rfl, ?_, ?_⟩
  · have hn : _preamendname (moveBookmarksTo (commitAmendModel repo) repo.wdir
        repo.numRevs) repo.numRevs = _preamendname repo repo.numRevs := rfl
    rw [← hn]
    exact lookup_setBookmark _ _ _
  · intro r hr
    simp only [setBookmark, moveBookmarksTo, commitAmendModel]
    simp only [ite_eq_right_iff, beq_iff_eq]
    exact fun h => absurd h (Nat.ne_of_lt hr)

/-- `c6repo` with `userestack` disabled (bookmark mode), for the
amended-C6 witness. -/
def c6bk : Repo :=
  { c6repo with userestack := false }

/-- Witness for `amend_children_warning_bookmark`. -/
theorem amend_children_warning_bookmark_witness :
    (amendM rbOk ⟨false, false, false⟩ false c6bk).err = none
    ∧ (amendM rbOk ⟨false, false, false⟩ false c6bk).warned = true
    ∧ lookupBookmark (amendM rbOk ⟨false, false, false⟩ false c6bk).repo
        (_preamendname c6bk c6bk.numRevs) = some c6bk.wdir
    ∧ ∀ r, r < c6bk.numRevs →
        (amendM rbOk ⟨false, false, false⟩ false c6bk).repo.parentrevs r =
          c6bk.parentrevs r :=
  amend_children_warning_bookmark rbOk c6bk rfl rfl rfl (by decide) (by rfl)

/-! ## Part 5: the stability invariant of `restack` (C1)

The claim quantifies over repository states in which changesets of the
current stack have been obsoleted, each with a single successor.  We
formalise that class canonically: a linear stack `0 ← 1 ← ... ← k-1`
(the working directory on top), an arbitrary set `O` of stack positions
that have been amended, and for each amended position its single
successor — a fresh changeset whose parent is the amended changeset's
original parent, which is exactly what `hg amend` produces.  The amended
changesets are obsolete but kept visible by inhibition markers (the
deployment's inhibit extension), their children not yet rebased.  `O` is
given as a strictly ascending list; the successor of the `idx`-th element
of `O` is revision `k + idx`.
-/

/-- The obsolescence markers of the canonical stack: the `idx`-th element
of `O` was rewritten into revision `base + idx`. -/
def mkMarkers (base : Nat) : List Nat → Nat → List (Nat × Nat)
  | [], _ => []
  | i :: rest, idx => (i, base + idx) :: mkMarkers base rest (idx + 1)

/-- The canonical post-amend stack state described above. -/
def mkStack (k : Nat) (O : List Nat) : Repo :=
  { numRevs := k + O.length
    parentrevs := fun r =>
      if r < k then (if r = 0 then [] else [r - 1])
      else match O.get? (r - k) with
        | some i => if i = 0 then [] else [i - 1]
        | none => []
    markers := mkMarkers k O 0
    pruned := []
    inhibited := O
    stripped := []
    bookmarks := []
    activebookmark := none
    wdir := k - 1
    wparents := 1
    publicB := fun _ => false
    histedit := false
    userestack := false
    createmarkersEnabled := true }

/-- Modelled from the spec: the host rebase subsystem applied to a source
set and a destination.  Every source revision (in ascending revision
order) is recreated as a fresh revision; parents inside the source set
are mapped to the corresponding copies and parents outside it to the
destination; the old revisions are marked obsolete with their copy as
single successor, their inhibition markers are lifted, bookmarks follow
the copies, the copies are drafts, and the working directory follows its
copy when it was rebased. -/
def rebaseApply (repo : Repo) (srcs : List Nat) (dest : Nat) : Repo :=
  let n := repo.numRevs
  let copyOf : Nat → Nat := fun s => n + srcs.indexOf s
  { repo with
    numRevs := n + srcs.length
    parentrevs := fun r =>
      if r < n then repo.parentrevs r
      else match srcs.get? (r - n) with
        | some s => (repo.parentrevs s).map
            (fun p => if srcs.contains p then copyOf p else dest)
        | none => []
    markers := repo.markers ++ mkMarkers n srcs 0
    inhibited := repo.inhibited.filter (fun r => !(srcs.contains r))
    bookmarks := repo.bookmarks.map
      (fun b => if srcs.contains b.2 then (b.1, copyOf b.2) else b)
    publicB := fun r => if r < n then repo.publicB r else false
    wdir := if srcs.contains repo.wdir then copyOf repo.wdir else repo.wdir }

/-- Modelled from the spec: the host rebase as a `RebaseFn` (it reports a
merge conflict only through `InterventionRequired`, which this model of a
conflict-free history never raises). -/
def rebaseModel : RebaseFn := fun repo srcs dest => .ok (rebaseApply repo srcs dest)

/-- The stability property of the claim: no non-obsolete (visible)
changeset has an obsolete ancestor. -/
def Stable (σ : Repo) : Prop :=
  ∀ v a, σ.obsB v = false → σ.isAncestor a v = true → σ.obsB a = false

/-- Membership in `mkMarkers`. -/
theorem mem_mkMarkers (base : Nat) :
    ∀ (l : List Nat) (idx : Nat) (x y : Nat),
      ((x, y) ∈ mkMarkers base l idx ↔
        ∃ j, j < l.length ∧ l.get? j = some x ∧ y = base + idx + j) := by
  intro l
  induction l with
  | nil => simp [mkMarkers]
  | cons i rest ih =>
    intro idx x y
    simp only [mkMarkers, List.mem_cons, Prod.mk.injEq]
    constructor
    · rintro (⟨rfl, rfl⟩ | h)
      · exact ⟨0, by simp⟩
      · obtain ⟨j, hj, hg, hy⟩ := (ih (idx + 1) x y).mp h
        exact ⟨j + 1, by simpa using hj, by simpa using hg, by omega⟩
    · rintro ⟨j, hj, hg, rfl⟩
      cases j with
      | zero =>
        left
        simp only [List.get?] at hg
        exact ⟨by injection hg with h; exact h.symm, by omega⟩
      | succ j =>
        right
        refine (ih (idx + 1) x _).mpr ⟨j, by simpa using hj, by simpa using hg, by omega⟩

/-- Sources of `mkMarkers` markers: filtering by a source revision on a
duplicate-free list keeps exactly its marker. -/
theorem filter_fst_mkMarkers (base : Nat) :
    ∀ (l : List Nat), l.Nodup → ∀ (idx r : Nat),
      (mkMarkers base l idx).filter (fun m => m.1 == r) =
        if r ∈ l then [(r, base + idx + l.indexOf r)] else [] := by
  intro l
  induction l with
  | nil => intro _ idx r; simp [mkMarkers]
  | cons i rest ih =>
    intro hnd idx r
    have hnd' : rest.Nodup := hnd.of_cons
    by_cases hri : r = i
    · subst hri
      have hrr : r ∉ rest := (List.nodup_cons.mp hnd).1
      simp [mkMarkers, List.filter_cons, ih hnd' (idx + 1) r, hrr]
    · have hne : ((i, base + idx).1 == r) = false := by
        simp [Ne.symm hri]
      rw [mkMarkers, List.filter_cons]
      simp only [hne, Bool.false_eq_true, if_false, ih hnd' (idx + 1) r]
      by_cases hr : r ∈ rest
      · rw [if_pos hr, if_pos (List.mem_cons_of_mem i hr)]
        have hix : (i :: rest).indexOf r = rest.indexOf r + 1 := by
          simp [List.indexOf_cons, beq_false_of_ne (Ne.symm hri)]
        rw [hix]
        have harith : base + (idx + 1) + rest.indexOf r =
            base + idx + (rest.indexOf r + 1) := by omega
        rw [harith]
      · rw [if_neg hr, if_neg (by simp [hri, hr])]

/-- Targets of `mkMarkers` markers outside the fresh-revision range: no
marker matches. -/
theorem filter_snd_mkMarkers_out (base : Nat) (l : List Nat) (idx y : Nat)
    (hy : y < base + idx ∨ base + idx + l.length ≤ y) :
    (mkMarkers base l idx).filter (fun m => m.2 == y) = [] := by
  rw [List.filter_eq_nil_iff]
  rintro ⟨x, y'⟩ hm
  obtain ⟨j, hj, _, hyy⟩ := (mem_mkMarkers base l idx x y').mp hm
  simp only [beq_iff_eq]
  omega

/-- Targets of `mkMarkers` markers: filtering by the `j`-th fresh
revision keeps exactly the `j`-th marker. -/
theorem filter_snd_mkMarkers (base : Nat) :
    ∀ (l : List Nat) (idx j : Nat) (hj : j < l.length),
      (mkMarkers base l idx).filter (fun m => m.2 == base + idx + j) =
        [(l.get ⟨j, hj⟩, base + idx + j)] := by
  intro l
  induction l with
  | nil => intro idx j hj; cases hj
  | cons i rest ih =>
    intro idx j hj
    cases j with
    | zero =>
      have hrest := filter_snd_mkMarkers_out base rest (idx + 1) (base + idx)
        (by omega)
      simp [mkMarkers, List.filter_cons, hrest]
    | succ j' =>
      have hj' : j' < rest.length := by simpa using hj
      have hstep := ih (idx + 1) j' hj'
      have harith : base + (idx + 1) + j' = base + idx + (j' + 1) := by omega
      rw [harith] at hstep
      have hne : ((i, base + idx).2 == base + idx + (j' + 1)) = false := by
        simp only [beq_eq_false_iff_ne]
        omega
      simp [mkMarkers, List.filter_cons, hne, hstep]

/-- A revision is the source of some `mkMarkers` marker exactly when it
is in the list. -/
theorem any_fst_mkMarkers (base : Nat) :
    ∀ (l : List Nat) (idx r : Nat),
      (mkMarkers base l idx).any (fun m => m.1 == r) = decide (r ∈ l) := by
  intro l
  induction l with
  | nil => intro idx r; simp [mkMarkers]
  | cons i rest ih =>
    intro idx r
    by_cases hri : r = i
    · subst hri
      simp [mkMarkers]
    · simp [mkMarkers, List.any_cons, ih (idx + 1) r, Ne.symm hri, hri]

/-- Filtering a range by a predicate false everywhere below the bound. -/
theorem filter_range_nil (n : Nat) (p : Nat → Bool)
    (h : ∀ x, x < n → p x = false) : (List.range n).filter p = [] := by
  rw [List.filter_eq_nil_iff]
  intro a ha
  simp [h a (List.mem_range.mp ha)]

/-- Filtering a range by a predicate true exactly at one point below the
bound. -/
theorem filter_range_singleton (n : Nat) (p : Nat → Bool) (x0 : Nat)
    (hx : x0 < n) (hiff : ∀ x, x < n → (p x = true ↔ x = x0)) :
    (List.range n).filter p = [x0] := by
  induction n with
  | zero => cases hx
  | succ n ih =>
    rw [List.range_succ, List.filter_append]
    by_cases hxn : x0 = n
    · subst hxn
      have h1 : (List.range x0).filter p = [] :=
        filter_range_nil x0 p (fun x hlt => by
          cases hpx : p x with
          | true => exact absurd ((hiff x (by omega)).mp hpx) (by omega)
          | false => rfl)
      have h2 : p x0 = true := (hiff x0 (by omega)).mpr rfl
      simp [h1, h2]
    · have hx' : x0 < n := by omega
      have h1 := ih hx' (fun x hlt => hiff x (by omega))
      have h2 : p n = false := by
        cases hpn : p n with
        | true => exact absurd ((hiff n (by omega)).mp hpn) (by omega)
        | false => rfl
      simp [h1, h2]

/-- Membership in `succStep` is having a marker edge. -/
theorem succStep_mem (σ : Repo) (q c : Nat) :
    c ∈ σ.succStep q ↔ (q, c) ∈ σ.markers := by
  simp only [Repo.succStep, List.mem_map, List.mem_filter, beq_iff_eq]
  constructor
  · rintro ⟨⟨x, y⟩, ⟨hm, hx⟩, hy⟩
    simp only at hx hy
    rw [← hx, ← hy]
    exact hm
  · intro hm
    exact ⟨(q, c), ⟨hm, rfl⟩, rfl⟩

/-- One marker edge gives transitive reachability. -/
theorem obsReach_of_edge (σ : Repo) (a b : Nat) (h : (a, b) ∈ σ.markers) :
    σ.obsReach a b = true := by
  have hlen : σ.markers.length ≠ 0 := by
    intro hc
    rw [List.length_eq_zero] at hc
    rw [hc] at h
    cases h
  obtain ⟨m, hm⟩ := Nat.exists_eq_succ_of_ne_zero hlen
  rw [Repo.obsReach, hm, Repo.markerReach]
  rw [List.any_eq_true]
  exact ⟨b, (succStep_mem σ a b).mpr h, by simp⟩

/-- A revision with no incoming marker is reached by nobody. -/
theorem markerReach_no_inedge (σ : Repo) (b : Nat)
    (hin : σ.markers.filter (fun m => m.2 == b) = []) :
    ∀ f q, σ.markerReach f q b = false := by
  intro f
  induction f with
  | zero => intro q; rfl
  | succ f ih =>
    intro q
    rw [Repo.markerReach]
    rw [List.any_eq_false]
    intro c hc
    have hedge : (q, c) ∈ σ.markers := (succStep_mem σ q c).mp hc
    simp only [Bool.or_eq_true, beq_iff_eq]
    rintro (rfl | hcb)
    · have hmm : (q, c) ∈ σ.markers.filter (fun m => m.2 == c) :=
        List.mem_filter.mpr ⟨hedge, by simp⟩
      rw [hin] at hmm
      cases hmm
    · rw [ih c] at hcb
      cases hcb

/-- A revision whose only incoming marker comes from `a`, where `a`
itself has no incoming marker, is reached exactly from `a`. -/
theorem obsReach_singleton_inedge (σ : Repo) (a b : Nat)
    (hin : σ.markers.filter (fun m => m.2 == b) = [(a, b)])
    (hina : σ.markers.filter (fun m => m.2 == a) = []) :
    ∀ q, σ.obsReach q b = true ↔ q = a := by
  have hfwd : ∀ f q, σ.markerReach f q b = true → q = a := by
    intro f
    induction f with
    | zero => intro q h; cases h
    | succ f ih =>
      intro q h
      rw [Repo.markerReach, List.any_eq_true] at h
      obtain ⟨c, hc, hcb⟩ := h
      have hedge : (q, c) ∈ σ.markers := (succStep_mem σ q c).mp hc
      rw [Bool.or_eq_true] at hcb
      rcases hcb with hcb | hcb
      · rw [beq_iff_eq] at hcb
        subst hcb
        have hmem : (q, c) ∈ σ.markers.filter (fun m => m.2 == c) :=
          List.mem_filter.mpr ⟨hedge, by simp⟩
        rw [hin] at hmem
        have h := List.mem_singleton.mp hmem
        exact (Prod.ext_iff.mp h).1
      · have hca : c = a := ih c hcb
        subst hca
        have hmem : (q, c) ∈ σ.markers.filter (fun m => m.2 == c) :=
          List.mem_filter.mpr ⟨hedge, by simp⟩
        rw [hina] at hmem
        cases hmem
  intro q
  constructor
  · exact hfwd σ.markers.length q
  · intro hq
    rw [hq]
    have hedge : (a, b) ∈ σ.markers := by
      have hmm : (a, b) ∈ σ.markers.filter (fun m => m.2 == b) := by
        rw [hin]
        exact List.mem_singleton_self _
      exact List.mem_of_mem_filter hmm
    exact obsReach_of_edge σ a b hedge

/-- A revision with no outgoing marker reaches nobody. -/
theorem markerReach_no_outedge (σ : Repo) (r : Nat)
    (hout : σ.markers.filter (fun m => m.1 == r) = []) :
    ∀ f s, σ.markerReach f r s = false := by
  intro f s
  cases f with
  | zero => rfl
  | succ f =>
    rw [Repo.markerReach, List.any_eq_false]
    intro c hc
    rw [Repo.succStep, hout] at hc
    cases hc

/-- A revision whose only outgoing marker goes to `c`, where `c` itself
has no outgoing marker, reaches exactly `c`. -/
theorem obsReach_out_singleton (σ : Repo) (r c : Nat)
    (hout : σ.markers.filter (fun m => m.1 == r) = [(r, c)])
    (houtc : σ.markers.filter (fun m => m.1 == c) = []) :
    ∀ s, σ.obsReach r s = true ↔ s = c := by
  intro s
  constructor
  · intro h
    rw [Repo.obsReach] at h
    cases hf : σ.markers.length with
    | zero => rw [hf] at h; cases h
    | succ f =>
      rw [hf, Repo.markerReach, List.any_eq_true] at h
      obtain ⟨c', hc', hcb⟩ := h
      rw [Repo.succStep, hout] at hc'
      have hcc : c' = c := by simpa using hc'
      subst hcc
      rw [Bool.or_eq_true] at hcb
      rcases hcb with hcb | hcb
      · exact (beq_iff_eq.mp hcb).symm
      · rw [markerReach_no_outedge σ c' houtc] at hcb
        cases hcb
  · rintro rfl
    have hedge : (r, s) ∈ σ.markers := by
      have : (r, s) ∈ σ.markers.filter (fun m => m.1 == r) := by
        rw [hout]
        exact List.mem_singleton_self _
      exact List.mem_of_mem_filter this
    exact obsReach_of_edge σ r s hedge

/-- A non-obsolete revision is visible (no stripping in play). -/
theorem visible_of_not_obs (σ : Repo) (r : Nat) (hst : σ.stripped = [])
    (hn : 1 ≤ σ.numRevs) (hobs : σ.obsB r = false) : σ.visibleB r = true := by
  obtain ⟨m, hm⟩ := Nat.exists_eq_succ_of_ne_zero (by omega : σ.numRevs ≠ 0)
  rw [Repo.visibleB, hm, Repo.visAux, hst, hobs]
  simp

/-- An inhibited revision is visible (no stripping in play). -/
theorem visible_of_inhibited (σ : Repo) (r : Nat) (hst : σ.stripped = [])
    (hn : 1 ≤ σ.numRevs) (hinh : r ∈ σ.inhibited) : σ.visibleB r = true := by
  obtain ⟨m, hm⟩ := Nat.exists_eq_succ_of_ne_zero (by omega : σ.numRevs ≠ 0)
  rw [Repo.visibleB, hm, Repo.visAux, hst]
  simp [hinh]

/-- `List.any` only depends on the values of the predicate on the
list. -/
theorem any_congr_mem {α : Type} (l : List α) (f g : α → Bool)
    (h : ∀ x ∈ l, f x = g x) : l.any f = l.any g := by
  induction l with
  | nil => rfl
  | cons x xs ih =>
    simp only [List.any_cons]
    rw [h x (List.mem_cons_self x xs), ih (fun y hy => h y (List.mem_cons_of_mem x hy))]

/-- Well-formed parent structure: parents precede their children in
revision order.  Mercurial guarantees this for local revision numbers,
and the rebase model preserves it. -/
def WfParents (σ : Repo) : Prop :=
  ∀ r p, p ∈ σ.parentrevs r → p < r

/-- Out-of-range revisions have no parents. -/
def ClosedParents (σ : Repo) : Prop :=
  ∀ r, σ.numRevs ≤ r → σ.parentrevs r = []

/-- An ancestor is strictly smaller (well-formed parents). -/
theorem anc_lt (σ : Repo) (hwf : WfParents σ) :
    ∀ f a b, σ.ancAux f a b = true → a < b := by
  intro f
  induction f with
  | zero => intro a b h; cases h
  | succ f ih =>
    intro a b h
    rw [Repo.ancAux, List.any_eq_true] at h
    obtain ⟨p, hp, hor⟩ := h
    have hpb : p < b := hwf b p hp
    rw [Bool.or_eq_true] at hor
    rcases hor with hor | hor
    · rw [beq_iff_eq] at hor
      omega
    · have := ih a p hor
      omega

/-- Ancestor search is insensitive to the fuel above the revision
number (well-formed parents). -/
theorem ancAux_fuel (σ : Repo) (hwf : WfParents σ) :
    ∀ b f g a, b < f → b < g → σ.ancAux f a b = σ.ancAux g a b := by
  intro b
  induction b using Nat.strong_induction_on with
  | _ b ih =>
    intro f g a hf hg
    obtain ⟨f', rfl⟩ := Nat.exists_eq_succ_of_ne_zero (by omega : f ≠ 0)
    obtain ⟨g', rfl⟩ := Nat.exists_eq_succ_of_ne_zero (by omega : g ≠ 0)
    rw [Repo.ancAux, Repo.ancAux]
    apply any_congr_mem
    intro p hp
    have hpb : p < b := hwf b p hp
    rw [ih p hpb f' g' a (by omega) (by omega)]

/-- `isAncestor` in terms of any sufficient fuel. -/
theorem isAncestor_eq_fuel (σ : Repo) (hwf : WfParents σ) (f a b : Nat)
    (hb : b < σ.numRevs) (hf : b < f) :
    σ.isAncestor a b = σ.ancAux f a b :=
  ancAux_fuel σ hwf b σ.numRevs f a (by omega) hf

/-- A revision reached by ancestor search is in range (closed
parents). -/
theorem anc_real (σ : Repo) (hcl : ClosedParents σ) (f a b : Nat)
    (h : σ.ancAux f a b = true) : b < σ.numRevs := by
  by_contra hge
  cases f with
  | zero => cases h
  | succ f =>
    rw [Repo.ancAux, hcl b (by omega), List.any_nil] at h
    cases h
/-- A parent is an ancestor. -/
theorem anc_parent (σ : Repo) (hwf : WfParents σ) (p b : Nat)
    (hp : p ∈ σ.parentrevs b) (hb : b < σ.numRevs) :
    σ.isAncestor p b = true := by
  rw [isAncestor_eq_fuel σ hwf (b + 1) p b hb (by omega), Repo.ancAux,
    List.any_eq_true]
  exact ⟨p, hp, by simp⟩

/-- Transitivity of the ancestor relation (well-formed, closed
parents). -/
theorem anc_trans (σ : Repo) (hwf : WfParents σ) (hcl : ClosedParents σ) :
    ∀ c a b, σ.isAncestor a b = true → σ.isAncestor b c = true →
      σ.isAncestor a c = true := by
  intro c
  induction c using Nat.strong_induction_on with
  | _ c ih =>
    intro a b hab hbc
    have hc : c < σ.numRevs := anc_real σ hcl _ b c hbc
    rw [isAncestor_eq_fuel σ hwf (c + 1) b c hc (by omega), Repo.ancAux,
      List.any_eq_true] at hbc
    obtain ⟨p, hp, hor⟩ := hbc
    have hpc : p < c := hwf c p hp
    rw [isAncestor_eq_fuel σ hwf (c + 1) a c hc (by omega), Repo.ancAux,
      List.any_eq_true]
    refine ⟨p, hp, ?_⟩
    rw [Bool.or_eq_true] at hor ⊢
    rcases hor with hor | hor
    · rw [beq_iff_eq] at hor
      subst hor
      right
      have hbn : p < σ.numRevs := by omega
      rw [← isAncestor_eq_fuel σ hwf c a p hbn (by omega)] at *
      exact hab
    · right
      have hbp : σ.isAncestor b p = true := by
        have hpn : p < σ.numRevs := by omega
        rw [isAncestor_eq_fuel σ hwf c b p hpn (by omega)] at *
        exact hor
      have := ih p hpc a b hab hbp
      have hpn : p < σ.numRevs := by omega
      rw [← isAncestor_eq_fuel σ hwf c a p hpn (by omega)] at *
      exact this

/-- Filtering a range by a predicate true exactly at two points below the
bound. -/
theorem filter_range_pair (n : Nat) (p : Nat → Bool) (x0 x1 : Nat)
    (hlt : x0 < x1) (hx : x1 < n)
    (hiff : ∀ x, x < n → (p x = true ↔ (x = x0 ∨ x = x1))) :
    (List.range n).filter p = [x0, x1] := by
  induction n with
  | zero => cases hx
  | succ n ih =>
    rw [List.range_succ, List.filter_append]
    by_cases hxn : x1 = n
    · subst hxn
      have h1 : (List.range x1).filter p = [x0] :=
        filter_range_singleton x1 p x0 hlt (fun x hltx => by
          rw [hiff x (by omega)]
          omega)
      have h2 : p x1 = true := (hiff x1 (by omega)).mpr (Or.inr rfl)
      simp [h1, h2]
    · have hx' : x1 < n := by omega
      have h1 := ih hx' (fun x hltx => hiff x (by omega))
      have h2 : p n = false := by
        cases hpn : p n with
        | true => exact absurd ((hiff n (by omega)).mp hpn) (by omega)
        | false => rfl
      simp [h1, h2]

/-! ### Characterization of the canonical stack -/

/-- Parents of original stack revisions. -/
theorem mk_parent_orig (k : Nat) (O : List Nat) (r : Nat) (hr : r < k) :
    (mkStack k O).parentrevs r = if r = 0 then [] else [r - 1] := by
  simp [mkStack, hr]

/-- Parents of successor revisions. -/
theorem mk_parent_succ (k : Nat) (O : List Nat) (idx : Nat) (hj : idx < O.length) :
    (mkStack k O).parentrevs (k + idx) =
      if O.get ⟨idx, hj⟩ = 0 then [] else [O.get ⟨idx, hj⟩ - 1] := by
  have h1 : ¬(k + idx < k) := by omega
  have h2 : k + idx - k = idx := by omega
  simp [mkStack, h1, h2, List.getElem?_eq_getElem hj]

/-- Parents of out-of-range revisions. -/
theorem mk_parent_out (k : Nat) (O : List Nat) (r : Nat) (hr : k + O.length ≤ r) :
    (mkStack k O).parentrevs r = [] := by
  have h1 : ¬(r < k) := by omega
  have h2 : O.length ≤ r - k := by omega
  simp [mkStack, h1, List.getElem?_eq_none h2]

/-- The canonical stack has well-formed parents. -/
theorem wf_mkStack (k : Nat) (O : List Nat) (hO : ∀ i ∈ O, i < k) :
    WfParents (mkStack k O) := by
  intro r p hp
  by_cases hr : r < k
  · rw [mk_parent_orig k O r hr] at hp
    by_cases hr0 : r = 0
    · rw [if_pos hr0] at hp
      cases hp
    · rw [if_neg hr0] at hp
      have : p = r - 1 := List.mem_singleton.mp hp
      omega
  · by_cases hrange : r < k + O.length
    · have hidx : r = k + (r - k) := by omega
      have hj : r - k < O.length := by omega
      rw [hidx, mk_parent_succ k O (r - k) hj] at hp
      set i := O.get ⟨r - k, hj⟩ with hi
      have hik : i < k := hO i (List.get_mem O _ _)
      by_cases hi0 : i = 0
      · rw [if_pos hi0] at hp
        cases hp
      · rw [if_neg hi0] at hp
        have : p = i - 1 := List.mem_singleton.mp hp
        omega
    · rw [mk_parent_out k O r (by omega)] at hp
      cases hp

/-- The canonical stack has closed parents. -/
theorem closed_mkStack (k : Nat) (O : List Nat) : ClosedParents (mkStack k O) := by
  intro r hr
  exact mk_parent_out k O r hr

/-- Obsolete revisions of the canonical stack are exactly the amended
positions. -/
theorem obs_mkStack (k : Nat) (O : List Nat) (r : Nat) :
    (mkStack k O).obsB r = decide (r ∈ O) := by
  show ((mkMarkers k O 0).any (fun m => m.1 == r) || List.contains [] r) = _
  rw [any_fst_mkMarkers k O 0 r]
  simp

/-- Every revision of the canonical stack is visible. -/
theorem vis_mkStack (k : Nat) (O : List Nat) (hk : 1 ≤ k) (r : Nat) :
    (mkStack k O).visibleB r = true := by
  by_cases hr : r ∈ O
  · exact visible_of_inhibited (mkStack k O) r rfl (by simp [mkStack]; omega) hr
  · refine visible_of_not_obs (mkStack k O) r rfl (by simp [mkStack]; omega) ?_
    rw [obs_mkStack]
    simp [hr]

/-- Ancestors never exceed the original stack range. -/
theorem anc_mk_lt_k (k : Nat) (O : List Nat) (hO : ∀ i ∈ O, i < k) :
    ∀ f a b, (mkStack k O).ancAux f a b = true → a < k := by
  intro f
  induction f with
  | zero => intro a b h; cases h
  | succ f ih =>
    intro a b h
    rw [Repo.ancAux, List.any_eq_true] at h
    obtain ⟨p, hp, hor⟩ := h
    have hpk : p < k := by
      by_cases hb : b < k
      · rw [mk_parent_orig k O b hb] at hp
        by_cases hb0 : b = 0
        · rw [if_pos hb0] at hp; cases hp
        · rw [if_neg hb0] at hp
          have := List.mem_singleton.mp hp
          omega
      · by_cases hrange : b < k + O.length
        · have hj : b - k < O.length := by omega
          have hidx : b = k + (b - k) := by omega
          rw [hidx, mk_parent_succ k O (b - k) hj] at hp
          set i := O.get ⟨b - k, hj⟩ with hi
          have hik : i < k := hO i (List.get_mem O _ _)
          by_cases hi0 : i = 0
          · rw [if_pos hi0] at hp; cases hp
          · rw [if_neg hi0] at hp
            have := List.mem_singleton.mp hp
            omega
        · rw [mk_parent_out k O b (by omega)] at hp; cases hp
    rw [Bool.or_eq_true] at hor
    rcases hor with hor | hor
    · rw [beq_iff_eq] at hor; omega
    · exact ih a p hor

/-- Ancestry among original stack revisions is the strict order. -/
theorem anc_mk_orig (k : Nat) (O : List Nat) (hk : 1 ≤ k) (hO : ∀ i ∈ O, i < k) :
    ∀ b, b < k → ∀ a, ((mkStack k O).isAncestor a b = true ↔ a < b) := by
  have hwf := wf_mkStack k O hO
  intro b
  induction b using Nat.strong_induction_on with
  | _ b ih =>
    intro hb a
    have hbn : b < (mkStack k O).numRevs := by simp [mkStack]; omega
    rw [isAncestor_eq_fuel (mkStack k O) hwf (b + 1) a b hbn (by omega),
      Repo.ancAux, mk_parent_orig k O b hb]
    by_cases hb0 : b = 0
    · subst hb0
      simp
    · rw [if_neg hb0]
      simp only [List.any_cons, List.any_nil, Bool.or_false, Bool.or_eq_true,
        beq_iff_eq]
      have hb1 : b - 1 < b := by omega
      have hfuel : (mkStack k O).ancAux b a (b - 1) =
          (mkStack k O).isAncestor a (b - 1) := by
        have : b - 1 < (mkStack k O).numRevs := by simp [mkStack]; omega
        rw [isAncestor_eq_fuel (mkStack k O) hwf b a (b - 1) this (by omega)]
      rw [hfuel, ih (b - 1) hb1 (by omega) a]
      omega

/-- Ancestry below a successor revision: the ancestors are exactly the
original revisions below the amended position. -/
theorem anc_mk_succ (k : Nat) (O : List Nat) (hk : 1 ≤ k) (hO : ∀ i ∈ O, i < k)
    (idx : Nat) (hj : idx < O.length) (a : Nat) :
    ((mkStack k O).isAncestor a (k + idx) = true ↔ a < O.get ⟨idx, hj⟩) := by
  have hwf := wf_mkStack k O hO
  have hbn : k + idx < (mkStack k O).numRevs := by simp [mkStack]; omega
  rw [isAncestor_eq_fuel (mkStack k O) hwf (k + idx + 1) a (k + idx) hbn (by omega),
    Repo.ancAux, mk_parent_succ k O idx hj]
  set i := O.get ⟨idx, hj⟩ with hi
  have hik : i < k := hO i (List.get_mem O _ _)
  by_cases hi0 : i = 0
  · rw [if_pos hi0]
    simp [hi0]
  · rw [if_neg hi0]
    simp only [List.any_cons, List.any_nil, Bool.or_false, Bool.or_eq_true,
      beq_iff_eq]
    have hfuel : (mkStack k O).ancAux (k + idx) a (i - 1) =
        (mkStack k O).isAncestor a (i - 1) := by
      have h1 : i - 1 < (mkStack k O).numRevs := by simp [mkStack]; omega
      rw [isAncestor_eq_fuel (mkStack k O) hwf (k + idx) a (i - 1) h1 (by omega)]
    rw [hfuel, anc_mk_orig k O hk hO (i - 1) (by omega) a]
    omega

/-- Obsolescence reachability in the canonical stack: one marker hop
from an amended position to its successor. -/
theorem obsReach_mk (k : Nat) (O : List Nat) (hnd : O.Nodup) (hO : ∀ i ∈ O, i < k)
    (a b : Nat) :
    ((mkStack k O).obsReach a b = true ↔ (a ∈ O ∧ b = k + O.indexOf a)) := by
  have hmk : (mkStack k O).markers = mkMarkers k O 0 := rfl
  by_cases ha : a ∈ O
  · have hout : (mkStack k O).markers.filter (fun m => m.1 == a) =
        [(a, k + O.indexOf a)] := by
      rw [hmk, filter_fst_mkMarkers k O hnd 0 a, if_pos ha]
      have : k + 0 + O.indexOf a = k + O.indexOf a := by omega
      rw [this]
    have houtc : (mkStack k O).markers.filter (fun m => m.1 == (k + O.indexOf a)) =
        [] := by
      rw [hmk, filter_fst_mkMarkers k O hnd 0 (k + O.indexOf a)]
      have hnotin : (k + O.indexOf a) ∉ O := by
        intro hc
        have := hO _ hc
        omega
      rw [if_neg hnotin]
    rw [obsReach_out_singleton (mkStack k O) a (k + O.indexOf a) hout houtc b]
    simp [ha]
  · have hout : (mkStack k O).markers.filter (fun m => m.1 == a) = [] := by
      rw [hmk, filter_fst_mkMarkers k O hnd 0 a, if_neg ha]
    rw [Repo.obsReach, markerReach_no_outedge (mkStack k O) a hout]
    simp [ha]

/-- Original stack revisions have no precursors. -/
theorem allprec_mk_orig (k : Nat) (O : List Nat) (hnd : O.Nodup)
    (hO : ∀ i ∈ O, i < k) (b : Nat) (hb : b < k) :
    (mkStack k O).revsAllprecursors b = [] := by
  apply filter_range_nil
  intro x _
  cases hr : (mkStack k O).obsReach x b with
  | false => simp [hr]
  | true =>
    obtain ⟨hxO, hbx⟩ := (obsReach_mk k O hnd hO x b).mp hr
    omega

/-- The only precursor of a successor revision is its amended
position. -/
theorem allprec_mk_succ (k : Nat) (O : List Nat) (hk : 1 ≤ k) (hnd : O.Nodup)
    (hO : ∀ i ∈ O, i < k) (idx : Nat) (hj : idx < O.length) :
    (mkStack k O).revsAllprecursors (k + idx) = [O.get ⟨idx, hj⟩] := by
  apply filter_range_singleton
  · have hg := hO _ (List.get_mem O idx hj)
    have hn : (mkStack k O).numRevs = k + O.length := rfl
    omega
  · intro x _
    rw [Bool.and_eq_true, vis_mkStack k O hk x]
    simp only [true_and]
    rw [obsReach_mk k O hnd hO x (k + idx)]
    constructor
    · rintro ⟨hxO, heq⟩
      have hix : List.indexOf x O = idx := by omega
      subst hix
      exact (List.indexOf_get (List.indexOf_lt_length.mpr hxO)).symm
    · rintro rfl
      refine ⟨List.get_mem O idx hj, ?_⟩
      rw [List.get_indexOf hnd ⟨idx, hj⟩]

/-- The only successor of an amended position is its replacement. -/
theorem allsucc_mk_mem (k : Nat) (O : List Nat) (hk : 1 ≤ k) (hnd : O.Nodup)
    (hO : ∀ i ∈ O, i < k) (a : Nat) (ha : a ∈ O) :
    (mkStack k O).revsAllsuccessors a = [k + O.indexOf a] := by
  apply filter_range_singleton
  · have := List.indexOf_lt_length.mpr ha
    simp [mkStack]
    omega
  · intro x _
    rw [Bool.and_eq_true, vis_mkStack k O hk x]
    simp only [true_and]
    rw [obsReach_mk k O hnd hO a x]
    simp [ha]

/-- Non-amended revisions have no successors. -/
theorem allsucc_mk_not (k : Nat) (O : List Nat) (hnd : O.Nodup)
    (hO : ∀ i ∈ O, i < k) (a : Nat) (ha : a ∉ O) :
    (mkStack k O).revsAllsuccessors a = [] := by
  apply filter_range_nil
  intro x _
  cases hr : (mkStack k O).obsReach a x with
  | false => simp [hr]
  | true =>
    obtain ⟨hxO, _⟩ := (obsReach_mk k O hnd hO a x).mp hr
    exact absurd hxO ha

/-- The head of a filtered range whose predicate holds at `0`. -/
theorem head_filter_range (n : Nat) (p : Nat → Bool) (hn : 0 < n)
    (hp : p 0 = true) : ((List.range n).filter p).head? = some 0 := by
  obtain ⟨m, rfl⟩ := Nat.exists_eq_succ_of_ne_zero (by omega : n ≠ 0)
  rw [List.range_succ_eq_map, List.filter_cons, if_pos hp]
  rfl

/-- The stack base computed by `restack` on the canonical stack is the
bottom of the stack. -/
theorem stackBase_mk (k : Nat) (O : List Nat) (hk : 1 ≤ k) (hO : ∀ i ∈ O, i < k) :
    stackBase (mkStack k O) = some 0 := by
  apply head_filter_range
  · simp [mkStack]
    omega
  · rw [Bool.and_eq_true, Bool.and_eq_true, vis_mkStack k O hk 0]
    refine ⟨⟨rfl, ?_⟩, by simp [mkStack]⟩
    rw [Bool.or_eq_true]
    by_cases hk1 : k = 1
    · left
      simp [mkStack, hk1]
    · right
      have hwd : (mkStack k O).wdir = k - 1 := rfl
      rw [hwd, anc_mk_orig k O hk hO (k - 1) (by omega) 0]
      omega

/-- A sorted list containing `0` has it in front. -/
theorem indexOf_zero_sorted (O : List Nat) (hs : List.Sorted (· < ·) O)
    (h0 : (0 : Nat) ∈ O) : O.indexOf 0 = 0 := by
  cases O with
  | nil => cases h0
  | cons x xs =>
    rcases List.mem_cons.mp h0 with hx | hx
    · rw [← hx]
      simp
    · have := (List.sorted_cons.mp hs).1 0 hx
      omega

/-- `_latest` of the stack bottom when it was amended. -/
theorem latest_mk_in (k : Nat) (O : List Nat) (hk : 1 ≤ k)
    (hs : List.Sorted (· < ·) O) (hnd : O.Nodup) (hO : ∀ i ∈ O, i < k)
    (h0 : (0 : Nat) ∈ O) : _latest (mkStack k O) 0 = k := by
  rw [_latest, allsucc_mk_mem k O hk hnd hO 0 h0, indexOf_zero_sorted O hs h0]
  rfl

/-- `_latest` of the stack bottom when it was not amended. -/
theorem latest_mk_notin (k : Nat) (O : List Nat) (hnd : O.Nodup)
    (hO : ∀ i ∈ O, i < k) (h0 : (0 : Nat) ∉ O) : _latest (mkStack k O) 0 = 0 := by
  rw [_latest, allsucc_mk_not k O hnd hO 0 h0]
  rfl

/-- Parent membership in the canonical stack, spelled out. -/
theorem mk_parent_mem (k : Nat) (O : List Nat) (p r : Nat) :
    (p ∈ (mkStack k O).parentrevs r ↔
      ((r < k ∧ r ≠ 0 ∧ p = r - 1) ∨
       (k ≤ r ∧ r - k < O.length ∧ O.getD (r - k) 0 ≠ 0 ∧
         p = O.getD (r - k) 0 - 1))) := by
  by_cases hr : r < k
  · rw [mk_parent_orig k O r hr]
    by_cases hr0 : r = 0
    · rw [if_pos hr0]
      constructor
      · intro h
        cases h
      · rintro (⟨_, h, _⟩ | ⟨hge, _, _, _⟩)
        · exact absurd hr0 h
        · omega
    · simp only [if_neg hr0, List.mem_singleton]
      constructor
      · intro h
        exact Or.inl ⟨hr, hr0, h⟩
      · rintro (⟨_, _, h⟩ | ⟨hge, _, _, _⟩)
        · exact h
        · omega
  · by_cases hrange : r < k + O.length
    · have hj : r - k < O.length := by omega
      have hidx : r = k + (r - k) := by omega
      have hgd : O.getD (r - k) 0 = O.get ⟨r - k, hj⟩ := List.getD_eq_get O 0 hj
      rw [hidx, mk_parent_succ k O (r - k) hj]
      have hback : k + (r - k) - k = r - k := by omega
      rw [hback, ← hgd]
      by_cases hi0 : O.getD (r - k) 0 = 0
      · rw [if_pos hi0]
        simp only [List.not_mem_nil, false_iff, not_or]
        constructor
        · rintro ⟨h1, _, _⟩; omega
        · rintro ⟨_, _, h3, _⟩; exact h3 hi0
      · rw [if_neg hi0]
        simp only [List.mem_singleton]
        constructor
        · intro h
          exact Or.inr ⟨by omega, hj, hi0, h⟩
        · rintro (⟨h1, _, _⟩ | ⟨_, _, _, h4⟩)
          · omega
          · exact h4
    · rw [mk_parent_out k O r (by omega)]
      simp only [List.not_mem_nil, false_iff, not_or]
      constructor
      · rintro ⟨h1, _, _⟩; omega
      · rintro ⟨_, h2, _, _⟩; omega

/-- The descendant set used by `_findrestacktargets` on the canonical
stack covers every revision, as soon as the query revisions include the
bottom and the replacement of the bottom when it was amended. -/
theorem descSet_mk (k : Nat) (O : List Nat) (hk : 1 ≤ k)
    (hs : List.Sorted (· < ·) O) (hnd : O.Nodup) (hO : ∀ i ∈ O, i < k)
    (revs : List Nat) (h0 : (0 : Nat) ∈ revs)
    (hcov : ∀ idx, ∀ hj : idx < O.length, O.get ⟨idx, hj⟩ = 0 → (k + idx) ∈ revs) :
    (mkStack k O).descendantSetOf revs = List.range (k + O.length) := by
  have hn : (mkStack k O).numRevs = k + O.length := rfl
  rw [Repo.descendantSetOf, hn]
  apply List.filter_eq_self.mpr
  intro d hd
  have hdlt : d < k + O.length := List.mem_range.mp hd
  rw [Bool.and_eq_true, vis_mkStack k O hk d]
  refine ⟨rfl, ?_⟩
  rw [List.any_eq_true]
  by_cases hdk : d < k
  · by_cases hd0 : d = 0
    · exact ⟨0, h0, by simp [hd0]⟩
    · refine ⟨0, h0, ?_⟩
      rw [Bool.or_eq_true]
      right
      rw [anc_mk_orig k O hk hO d hdk 0]
      omega
  · have hj : d - k < O.length := by omega
    have hidx : d = k + (d - k) := by omega
    by_cases hi0 : O.get ⟨d - k, hj⟩ = 0
    · refine ⟨k + (d - k), hcov (d - k) hj hi0, ?_⟩
      rw [Bool.or_eq_true]
      left
      rw [beq_iff_eq]
      omega
    · refine ⟨0, h0, ?_⟩
      rw [Bool.or_eq_true]
      right
      rw [hidx, anc_mk_succ k O hk hO (d - k) hj 0]
      omega

/-- The child list of a stack position: its original child (when the
position is not the top) followed by the replacement of that child (when
the child was amended). -/
def eBlock (k : Nat) (O : List Nat) (m : Nat) : List Nat :=
  (if m < k then [m] else []) ++ (if m ∈ O then [k + O.indexOf m] else [])

/-- The child-relationship map of `_findrestacktargets` on the canonical
stack. -/
theorem cmap_mk_core (k : Nat) (O : List Nat) (hk : 1 ≤ k)
    (hs : List.Sorted (· < ·) O) (hnd : O.Nodup) (hO : ∀ i ∈ O, i < k)
    (revs : List Nat) (h0 : (0 : Nat) ∈ revs)
    (hcov : ∀ idx, ∀ hj : idx < O.length, O.get ⟨idx, hj⟩ = 0 → (k + idx) ∈ revs)
    (p : Nat) :
    _getchildrelationships (mkStack k O) revs p = eBlock k O (p + 1) := by
  rw [_getchildrelationships, descSet_mk k O hk hs hnd hO revs h0 hcov]
  have hmem : ∀ r, ((mkStack k O).parentrevs r).contains p = true ↔
      ((p + 1 < k ∧ r = p + 1) ∨
       (p + 1 ∈ O ∧ r = k + O.indexOf (p + 1))) := by
    intro r
    rw [contains_true_iff, mk_parent_mem k O p r]
    constructor
    · rintro (⟨h1, h2, h3⟩ | ⟨h1, h2, h3, h4⟩)
      · left
        omega
      · right
        have hj : r - k < O.length := h2
        have hgd : O.getD (r - k) 0 = O.get ⟨r - k, hj⟩ := List.getD_eq_get O 0 hj
        have hmemO : O.get ⟨r - k, hj⟩ ∈ O := List.get_mem O _ _
        have hval : O.get ⟨r - k, hj⟩ = p + 1 := by
          rw [hgd] at h3 h4
          omega
        have hix : List.indexOf (p + 1) O = r - k := by
          rw [← hval, List.get_indexOf hnd ⟨r - k, hj⟩]
        constructor
        · rw [← hval]; exact hmemO
        · omega
    · rintro (⟨h1, h2⟩ | ⟨h1, h2⟩)
      · left
        omega
      · right
        have hjlt : List.indexOf (p + 1) O < O.length := List.indexOf_lt_length.mpr h1
        have hget : O.get ⟨List.indexOf (p + 1) O, hjlt⟩ = p + 1 :=
          List.indexOf_get hjlt
        have hsub : r - k = List.indexOf (p + 1) O := by omega
        have hgd : O.getD (r - k) 0 = O.get ⟨List.indexOf (p + 1) O, hjlt⟩ := by
          rw [hsub]
          exact List.getD_eq_get O 0 hjlt
        refine ⟨by omega, by omega, ?_, ?_⟩
        · rw [hgd, hget]; omega
        · rw [hgd, hget]
          omega
  by_cases hpk : p + 1 < k
  · by_cases hpO : p + 1 ∈ O
    · rw [eBlock, if_pos hpk, if_pos hpO]
      apply filter_range_pair _ _ (p + 1) (k + O.indexOf (p + 1))
      · have := List.indexOf_lt_length.mpr hpO
        omega
      · have := List.indexOf_lt_length.mpr hpO
        omega
      · intro x _
        rw [hmem x]
        constructor
        · rintro (⟨_, h⟩ | ⟨_, h⟩)
          · exact Or.inl h
          · exact Or.inr h
        · rintro (h | h)
          · exact Or.inl ⟨hpk, h⟩
          · exact Or.inr ⟨hpO, h⟩
    · rw [eBlock, if_pos hpk, if_neg hpO, List.append_nil]
      apply filter_range_singleton _ _ (p + 1) (by omega)
      intro x _
      rw [hmem x]
      constructor
      · rintro (⟨_, h⟩ | ⟨hin, _⟩)
        · exact h
        · exact absurd hin hpO
      · intro h
        exact Or.inl ⟨hpk, h⟩
  · have hpO : p + 1 ∉ O := by
      intro hc
      exact hpk (hO _ hc)
    rw [eBlock, if_neg hpk, if_neg hpO, List.append_nil]
    apply filter_range_nil
    intro x _
    cases hpr : ((mkStack k O).parentrevs x).contains p with
    | false => rfl
    | true =>
      rcases (hmem x).mp hpr with ⟨h1, _⟩ | ⟨h1, _⟩
      · exact absurd h1 hpk
      · exact absurd h1 hpO

/-- Above the stack there are no children. -/
theorem eBlock_top (k : Nat) (O : List Nat) (hO : ∀ i ∈ O, i < k) (x : Nat)
    (hx : k ≤ x) : eBlock k O x = [] := by
  have h1 : ¬(x < k) := by omega
  have h2 : x ∉ O := fun hc => h1 (hO x hc)
  simp [eBlock, h1, h2]

/-- Child lists are sorted ascending. -/
theorem eBlock_sorted (k : Nat) (O : List Nat) (x : Nat) :
    List.Sorted (· ≤ ·) (eBlock k O x) := by
  rw [eBlock]
  by_cases h1 : x < k <;> by_cases h2 : x ∈ O <;>
    simp [h1, h2, List.Sorted]
  omega

/-- The discovery sequence of the BFS from stack position `m` upward. -/
def visitSeq (k : Nat) (O : List Nat) (m : Nat) : List Nat :=
  ((List.range' m (k - m)).map (eBlock k O)).flatten

/-- The targets discovered from stack position `m` upward: the
replacements of amended positions that still have children. -/
def targetsFrom (k : Nat) (O : List Nat) (m : Nat) : List Nat :=
  ((List.range' m (k - m)).filter
    (fun x => decide (x ∈ O) && decide (x + 1 < k))).map
    (fun x => k + O.indexOf x)

/-- Unfolding the discovery sequence one stack position at a time. -/
theorem visitSeq_cons (k : Nat) (O : List Nat) (m : Nat) (h : m < k) :
    visitSeq k O m = eBlock k O m ++ visitSeq k O (m + 1) := by
  rw [visitSeq, visitSeq]
  have harith : k - m = (k - (m + 1)) + 1 := by omega
  rw [harith, List.range'_succ]
  simp

/-- Unfolding the target sequence one stack position at a time. -/
theorem targetsFrom_cons (k : Nat) (O : List Nat) (m : Nat) (h : m < k) :
    targetsFrom k O m =
      (if m ∈ O ∧ m + 1 < k then [k + O.indexOf m] else []) ++
        targetsFrom k O (m + 1) := by
  rw [targetsFrom, targetsFrom]
  have harith : k - m = (k - (m + 1)) + 1 := by omega
  rw [harith, List.range'_succ, List.filter_cons]
  by_cases h1 : m ∈ O <;> by_cases h2 : m + 1 < k <;> simp [h1, h2]

/-- The discovery sequence above the stack is empty. -/
theorem visitSeq_top (k : Nat) (O : List Nat) (m : Nat) (h : k ≤ m) :
    visitSeq k O m = [] := by
  rw [visitSeq]
  have : k - m = 0 := by omega
  rw [this]
  rfl

/-- The target sequence above the stack is empty. -/
theorem targetsFrom_top (k : Nat) (O : List Nat) (m : Nat) (h : k ≤ m) :
    targetsFrom k O m = [] := by
  rw [targetsFrom]
  have : k - m = 0 := by omega
  rw [this]
  rfl

/-- Skipping an already-processed queue entry. -/
theorem bfs_skip (repo : Repo) (cmap : Nat → List Nat) (fuel : Nat) (x : Nat)
    (Q pr tg : List Nat) (hx : x ∈ pr) :
    bfsAux repo cmap (fuel + 1) (x :: Q) pr tg = bfsAux repo cmap fuel Q pr tg := by
  rw [bfsAux, if_pos]
  rw [contains_true_iff]
  exact hx

/-- The BFS on the empty queue stops. -/
theorem bfs_nil (repo : Repo) (cmap : Nat → List Nat) (f : Nat) (pr tg : List Nat) :
    bfsAux repo cmap f [] pr tg = (pr, tg) := by
  cases f <;> rfl

/-- Processing an original stack revision: never a target, enqueues its
children. -/
theorem bfs_proc_orig (k : Nat) (O : List Nat) (hk : 1 ≤ k) (hnd : O.Nodup)
    (hO : ∀ i ∈ O, i < k) (m : Nat) (hm : m < k) (f : Nat) (Q pr tg : List Nat)
    (hmpr : m ∉ pr) :
    bfsAux (mkStack k O) (fun p => eBlock k O (p + 1)) (f + 1) (m :: Q) pr tg =
      bfsAux (mkStack k O) (fun p => eBlock k O (p + 1)) f
        (Q ++ eBlock k O (m + 1)) (pr ++ [m]) tg := by
  rw [bfsAux, if_neg (by rw [contains_true_iff]; exact hmpr)]
  rw [(eBlock_sorted k O (m + 1)).insertionSort_eq]
  rw [allprec_mk_orig k O hnd hO m hm]
  simp

/-- Processing the replacement of an amended position that still has
children: recorded as a target, its precursor's children enqueued. -/
theorem bfs_proc_succ_target (k : Nat) (O : List Nat) (hk : 1 ≤ k)
    (hnd : O.Nodup) (hO : ∀ i ∈ O, i < k) (m : Nat) (hmO : m ∈ O)
    (hm1 : m + 1 < k) (f : Nat) (Q pr tg : List Nat)
    (hspr : (k + O.indexOf m) ∉ pr) :
    bfsAux (mkStack k O) (fun p => eBlock k O (p + 1)) (f + 1)
        ((k + O.indexOf m) :: Q) pr tg =
      bfsAux (mkStack k O) (fun p => eBlock k O (p + 1)) f
        (Q ++ eBlock k O (m + 1)) (pr ++ [k + O.indexOf m])
        (tg ++ [k + O.indexOf m]) := by
  have hjlt : O.indexOf m < O.length := List.indexOf_lt_length.mpr hmO
  have hget : O.get ⟨O.indexOf m, hjlt⟩ = m := List.indexOf_get hjlt
  have hprec : (mkStack k O).revsAllprecursors (k + O.indexOf m) = [m] := by
    rw [allprec_mk_succ k O hk hnd hO (O.indexOf m) hjlt, hget]
  have hsnotO : (k + O.indexOf m) ∉ O := by
    intro hc
    have := hO _ hc
    omega
  have hsucc : (mkStack k O).revsAllsuccessors (k + O.indexOf m) = [] :=
    allsucc_mk_not k O hnd hO _ hsnotO
  have hcmaps : eBlock k O (k + O.indexOf m + 1) = [] :=
    eBlock_top k O hO _ (by omega)
  have hchild : eBlock k O (m + 1) ≠ [] := by
    rw [eBlock, if_pos hm1]
    simp
  rw [bfsAux, if_neg (by rw [contains_true_iff]; exact hspr)]
  rw [hcmaps]
  rw [hprec, hsucc]
  simp only [List.isEmpty_nil, Bool.not_false, List.isEmpty_cons, Bool.and_self,
    Bool.not_true]
  simp only [List.map_cons, List.map_nil, List.flatten_cons, List.flatten_nil,
    List.append_nil]
  have hcond : (!(eBlock k O (m + 1)).isEmpty) = true := by
    simp [List.isEmpty_eq_false, hchild]
  rw [hcond]
  simp

/-- Processing the replacement of the amended stack top: not a target
(no children to rebase). -/
theorem bfs_proc_succ_top (k : Nat) (O : List Nat) (hk : 1 ≤ k)
    (hnd : O.Nodup) (hO : ∀ i ∈ O, i < k) (m : Nat) (hmO : m ∈ O)
    (hm1 : k ≤ m + 1) (f : Nat) (Q pr tg : List Nat)
    (hspr : (k + O.indexOf m) ∉ pr) :
    bfsAux (mkStack k O) (fun p => eBlock k O (p + 1)) (f + 1)
        ((k + O.indexOf m) :: Q) pr tg =
      bfsAux (mkStack k O) (fun p => eBlock k O (p + 1)) f Q
        (pr ++ [k + O.indexOf m]) tg := by
  have hjlt : O.indexOf m < O.length := List.indexOf_lt_length.mpr hmO
  have hget : O.get ⟨O.indexOf m, hjlt⟩ = m := List.indexOf_get hjlt
  have hprec : (mkStack k O).revsAllprecursors (k + O.indexOf m) = [m] := by
    rw [allprec_mk_succ k O hk hnd hO (O.indexOf m) hjlt, hget]
  have hsnotO : (k + O.indexOf m) ∉ O := by
    intro hc
    have := hO _ hc
    omega
  have hsucc : (mkStack k O).revsAllsuccessors (k + O.indexOf m) = [] :=
    allsucc_mk_not k O hnd hO _ hsnotO
  have hcmaps : eBlock k O (k + O.indexOf m + 1) = [] :=
    eBlock_top k O hO _ (by omega)
  have hchild : eBlock k O (m + 1) = [] := eBlock_top k O hO _ hm1
  rw [bfsAux, if_neg (by rw [contains_true_iff]; exact hspr)]
  rw [hcmaps]
  rw [hprec, hsucc]
  simp only [List.isEmpty_nil, Bool.not_false, List.isEmpty_cons, Bool.and_self,
    Bool.not_true]
  simp only [List.map_cons, List.map_nil, List.flatten_cons, List.flatten_nil,
    List.append_nil]
  rw [hchild]
  simp

/-- Skipping a block of already-processed queue entries. -/
theorem bfs_skip_list (repo : Repo) (cmap : Nat → List Nat) :
    ∀ (T : List Nat) (f : Nat) (Q pr tg : List Nat), (∀ x ∈ T, x ∈ pr) →
      bfsAux repo cmap (f + T.length) (T ++ Q) pr tg =
        bfsAux repo cmap f Q pr tg := by
  intro T
  induction T with
  | nil =>
    intro f Q pr tg _
    simp
  | cons a T ih =>
    intro f Q pr tg h
    have hlen : f + (a :: T).length = (f + T.length) + 1 := by
      simp [List.length_cons]
      omega
    rw [hlen]
    rw [List.cons_append, bfs_skip repo cmap (f + T.length) a (T ++ Q) pr tg
      (h a (List.mem_cons_self a T))]
    exact ih f Q pr tg (fun x hx => h x (List.mem_cons_of_mem a hx))

/-- Membership in a child block. -/
theorem mem_eBlock (k : Nat) (O : List Nat) (j x : Nat) :
    x ∈ eBlock k O j ↔ (j < k ∧ x = j) ∨ (j ∈ O ∧ x = k + O.indexOf j) := by
  rw [eBlock]
  by_cases h1 : j < k <;> by_cases h2 : j ∈ O <;> simp [h1, h2]

/-- Membership in the discovery sequence. -/
theorem mem_visitSeq (k : Nat) (O : List Nat) (hO : ∀ i ∈ O, i < k)
    (m x : Nat) :
    x ∈ visitSeq k O m ↔
      (m ≤ x ∧ x < k) ∨ ∃ j, j ∈ O ∧ m ≤ j ∧ x = k + O.indexOf j := by
  rw [visitSeq]
  simp only [List.mem_flatten, List.mem_map]
  constructor
  · rintro ⟨l, ⟨j, hj, rfl⟩, hx⟩
    rw [List.mem_range'_1] at hj
    rcases (mem_eBlock k O j x).mp hx with ⟨h1, rfl⟩ | ⟨h1, rfl⟩
    · left
      omega
    · right
      exact ⟨j, h1, hj.1, rfl⟩
  · rintro (⟨h1, h2⟩ | ⟨j, hjO, hjm, rfl⟩)
    · refine ⟨eBlock k O x, ⟨x, ?_, rfl⟩, ?_⟩
      · rw [List.mem_range'_1]
        omega
      · rw [mem_eBlock]
        exact Or.inl ⟨h2, rfl⟩
    · have hjk := hO j hjO
      refine ⟨eBlock k O j, ⟨j, ?_, rfl⟩, ?_⟩
      · rw [List.mem_range'_1]
        omega
      · rw [mem_eBlock]
        exact Or.inr ⟨hjO, rfl⟩

/-- On a duplicate-free list, `indexOf` is injective on members. -/
theorem indexOf_inj_mk (O : List Nat) (hnd : O.Nodup) (a b : Nat)
    (ha : a ∈ O) (hb : b ∈ O) (h : O.indexOf a = O.indexOf b) : a = b := by
  have hal := List.indexOf_lt_length.mpr ha
  have hbl := List.indexOf_lt_length.mpr hb
  have h1 : O.get ⟨O.indexOf a, hal⟩ = a := List.indexOf_get hal
  have h2 : O.get ⟨O.indexOf b, hbl⟩ = b := List.indexOf_get hbl
  rw [← h1, ← h2]
  congr 1
  exact Fin.ext h

/-- Main simulation of the BFS of `_findrestacktargets` on the canonical
stack: starting from stack position `m` with the queue holding the child
block of `m` (possibly twice), the BFS visits the stack positions and
their replacements upward in order and collects exactly the replacements
of amended positions below the top. -/
theorem bfs_sim (k : Nat) (O : List Nat) (hk : 1 ≤ k) (hnd : O.Nodup)
    (hO : ∀ i ∈ O, i < k) :
    ∀ cnt m T f pr tg, k - m = cnt →
      (T = [] ∨ T = eBlock k O m) →
      (∀ x, x ∈ visitSeq k O m → x ∉ pr) →
      4 * cnt ≤ f →
      bfsAux (mkStack k O) (fun p => eBlock k O (p + 1)) f
          (eBlock k O m ++ T) pr tg =
        (pr ++ visitSeq k O m, tg ++ targetsFrom k O m) := by
  intro cnt
  induction cnt with
  | zero =>
    intro m T f pr tg hcm hT _ _
    have hkm : k ≤ m := by omega
    have he : eBlock k O m = [] := eBlock_top k O hO m hkm
    have hq : eBlock k O m ++ T = [] := by
      rcases hT with rfl | rfl <;> simp [he]
    rw [hq, bfs_nil, visitSeq_top k O m hkm, targetsFrom_top k O m hkm]
    simp
  | succ cnt ih =>
    intro m T f pr tg hcm hT hnp hf
    have hm : m < k := by omega
    have hmV : m ∈ visitSeq k O m :=
      (mem_visitSeq k O hO m m).mpr (Or.inl ⟨Nat.le_refl m, hm⟩)
    have hmpr : m ∉ pr := hnp m hmV
    have hnp1 : ∀ x, x ∈ visitSeq k O (m + 1) → x ∉ pr := by
      intro x hx
      apply hnp
      rw [visitSeq_cons k O m hm]
      exact List.mem_append_right _ hx
    have hxm1 : ∀ x, x ∈ visitSeq k O (m + 1) → x ≠ m := by
      intro x hx
      rcases (mem_visitSeq k O hO (m + 1) x).mp hx with ⟨h1, _⟩ | ⟨j, hj1, _, rfl⟩
      · omega
      · have := hO j hj1
        omega
    by_cases hmO : m ∈ O
    · have hsV : (k + O.indexOf m) ∈ visitSeq k O m :=
        (mem_visitSeq k O hO m (k + O.indexOf m)).mpr
          (Or.inr ⟨m, hmO, Nat.le_refl m, rfl⟩)
      have hspr : (k + O.indexOf m) ∉ pr := hnp _ hsV
      have hsm : (k + O.indexOf m) ≠ m := by omega
      have heB : eBlock k O m = [m, k + O.indexOf m] := by
        rw [eBlock, if_pos hm, if_pos hmO]
        rfl
      have hTsub : ∀ x ∈ T, x = m ∨ x = k + O.indexOf m := by
        intro x hx
        rcases hT with rfl | rfl
        · cases hx
        · rw [heB] at hx
          rcases List.mem_cons.mp hx with h | h
          · exact Or.inl h
          · exact Or.inr (List.mem_singleton.mp h)
      have hTlen : T.length ≤ 2 := by
        rcases hT with rfl | rfl
        · simp
        · rw [heB]
          simp
      have hxs1 : ∀ x, x ∈ visitSeq k O (m + 1) → x ≠ k + O.indexOf m := by
        intro x hx
        rcases (mem_visitSeq k O hO (m + 1) x).mp hx with ⟨_, h2⟩ | ⟨j, hj1, hj2, rfl⟩
        · omega
        · intro hc
          have hje : j = m := indexOf_inj_mk O hnd j m hj1 hmO (by omega)
          omega
      have hnp2 : ∀ x, x ∈ visitSeq k O (m + 1) →
          x ∉ pr ++ [m] ++ [k + O.indexOf m] := by
        intro x hx
        simp only [List.mem_append, List.mem_singleton]
        rintro ((h | h) | h)
        · exact hnp1 x hx h
        · exact hxm1 x hx h
        · exact hxs1 x hx h
      have hTpr : ∀ x ∈ T, x ∈ pr ++ [m] ++ [k + O.indexOf m] := by
        intro x hx
        simp only [List.mem_append, List.mem_singleton]
        rcases hTsub x hx with h | h
        · exact Or.inl (Or.inr h)
        · exact Or.inr h
      obtain ⟨g, rfl⟩ : ∃ g, f = g + T.length + 1 + 1 :=
        ⟨f - T.length - 2, by omega⟩
      have hg : 4 * cnt ≤ g := by omega
      rw [heB]
      rw [show ([m, k + O.indexOf m] ++ T) = m :: ((k + O.indexOf m) :: T) from rfl]
      rw [bfs_proc_orig k O hk hnd hO m hm (g + T.length + 1)
        ((k + O.indexOf m) :: T) pr tg hmpr]
      rw [List.cons_append]
      by_cases hm1 : m + 1 < k
      · rw [bfs_proc_succ_target k O hk hnd hO m hmO hm1 (g + T.length)
          (T ++ eBlock k O (m + 1)) (pr ++ [m]) tg
          (by simp only [List.mem_append, List.mem_singleton]
              rintro (h | h)
              · exact hspr h
              · exact hsm h)]
        rw [List.append_assoc T (eBlock k O (m + 1)) (eBlock k O (m + 1))]
        rw [bfs_skip_list (mkStack k O) (fun p => eBlock k O (p + 1)) T g
          (eBlock k O (m + 1) ++ eBlock k O (m + 1))
          (pr ++ [m] ++ [k + O.indexOf m]) (tg ++ [k + O.indexOf m]) hTpr]
        rw [ih (m + 1) (eBlock k O (m + 1)) g (pr ++ [m] ++ [k + O.indexOf m])
          (tg ++ [k + O.indexOf m]) (by omega) (Or.inr rfl) hnp2 hg]
        rw [visitSeq_cons k O m hm, targetsFrom_cons k O m hm, heB,
          if_pos ⟨hmO, hm1⟩]
        simp
      · have hm1' : k ≤ m + 1 := by omega
        rw [bfs_proc_succ_top k O hk hnd hO m hmO hm1' (g + T.length)
          (T ++ eBlock k O (m + 1)) (pr ++ [m]) tg
          (by simp only [List.mem_append, List.mem_singleton]
              rintro (h | h)
              · exact hspr h
              · exact hsm h)]
        rw [bfs_skip_list (mkStack k O) (fun p => eBlock k O (p + 1)) T g
          (eBlock k O (m + 1)) (pr ++ [m] ++ [k + O.indexOf m]) tg hTpr]
        rw [eBlock_top k O hO (m + 1) hm1', bfs_nil]
        rw [visitSeq_cons k O m hm, targetsFrom_cons k O m hm, heB,
          if_neg (by rintro ⟨_, h⟩; omega),
          visitSeq_top k O (m + 1) hm1', targetsFrom_top k O (m + 1) hm1']
        simp
    · have heB : eBlock k O m = [m] := by
        rw [eBlock, if_pos hm, if_neg hmO]
        rfl
      have hTpr : ∀ x ∈ T, x ∈ pr ++ [m] := by
        intro x hx
        rcases hT with rfl | rfl
        · cases hx
        · rw [heB] at hx
          simp only [List.mem_append, List.mem_singleton]
          exact Or.inr (List.mem_singleton.mp hx)
      have hTlen : T.length ≤ 1 := by
        rcases hT with rfl | rfl
        · simp
        · rw [heB]
          simp
      have hnp2 : ∀ x, x ∈ visitSeq k O (m + 1) → x ∉ pr ++ [m] := by
        intro x hx
        simp only [List.mem_append, List.mem_singleton]
        rintro (h | h)
        · exact hnp1 x hx h
        · exact hxm1 x hx h
      obtain ⟨g, rfl⟩ : ∃ g, f = g + T.length + 1 := ⟨f - T.length - 1, by omega⟩
      have hg : 4 * cnt ≤ g := by omega
      rw [heB, List.singleton_append]
      rw [bfs_proc_orig k O hk hnd hO m hm (g + T.length) T pr tg hmpr]
      rw [bfs_skip_list (mkStack k O) (fun p => eBlock k O (p + 1)) T g
        (eBlock k O (m + 1)) (pr ++ [m]) tg hTpr]
      have hih := ih (m + 1) [] g (pr ++ [m]) tg (by omega) (Or.inl rfl) hnp2 hg
      rw [List.append_nil] at hih
      rw [hih]
      rw [visitSeq_cons k O m hm, targetsFrom_cons k O m hm, heB,
        if_neg (by rintro ⟨h, _⟩; exact hmO h)]
      simp

/-- The fuel budget of the BFS is ample on the canonical stack. -/
theorem bfsFuel_mk_ample (k : Nat) (O : List Nat) (hk : 1 ≤ k) :
    4 * k + 1 ≤ bfsFuel (mkStack k O) := by
  have hn : (mkStack k O).numRevs = k + O.length := rfl
  rw [bfsFuel, hn]
  have h2 : 2 ≤ k + O.length + 1 := by omega
  have h4 : 4 ≤ (k + O.length + 1) * (k + O.length + 1) := Nat.mul_le_mul h2 h2
  have h5 : 4 * (k + O.length) ≤
      (k + O.length + 1) * (k + O.length + 1) * (k + O.length) :=
    Nat.mul_le_mul_right _ h4
  have heq : (k + O.length + 1) * ((k + O.length) * (k + O.length) + (k + O.length)) =
      (k + O.length + 1) * (k + O.length + 1) * (k + O.length) := by ring
  have hkn : k ≤ k + O.length := Nat.le_add_right k O.length
  linarith

/-- The restack targets of the canonical stack are exactly the
replacements of the amended positions below the stack top, listed from
the top of the stack downward. -/
theorem restackTargets_mk (k : Nat) (O : List Nat) (hk : 1 ≤ k)
    (hs : List.Sorted (· < ·) O) (hnd : O.Nodup) (hO : ∀ i ∈ O, i < k) :
    restackTargets (mkStack k O) = (targetsFrom k O 0).reverse := by
  have hlat : restackTargets (mkStack k O) =
      _findrestacktargets (mkStack k O) (_latest (mkStack k O) 0) := by
    rw [restackTargets, stackBase_mk k O hk hO]
  by_cases h0 : (0 : Nat) ∈ O
  · have idx0 : O.indexOf 0 = 0 := indexOf_zero_sorted O hs h0
    have hOlen : 0 < O.length := List.length_pos.mpr (List.ne_nil_of_mem h0)
    have hget0 : O.get ⟨0, hOlen⟩ = 0 := by
      have hgm : O.get ⟨0, hOlen⟩ ∈ O := List.get_mem O 0 hOlen
      have hgi : O.indexOf (O.get ⟨0, hOlen⟩) = 0 := List.get_indexOf hnd ⟨0, hOlen⟩
      exact indexOf_inj_mk O hnd (O.get ⟨0, hOlen⟩) 0 hgm h0 (by rw [hgi, idx0])
    have hpreck : (mkStack k O).revsAllprecursors k = [0] := by
      have h1 := allprec_mk_succ k O hk hnd hO 0 hOlen
      rw [hget0] at h1
      simpa using h1
    have hcm : restackChildrenof (mkStack k O) k = fun p => eBlock k O (p + 1) := by
      funext p
      rw [restackChildrenof, hpreck]
      refine cmap_mk_core k O hk hs hnd hO [k, 0] (by simp) ?_ p
      intro idx hj hg
      have h1 : O.indexOf (O.get ⟨idx, hj⟩) = idx := List.get_indexOf hnd ⟨idx, hj⟩
      rw [hg, idx0] at h1
      have hidx : idx = 0 := by omega
      subst hidx
      simp
    rw [hlat, latest_mk_in k O hk hs hnd hO h0, _findrestacktargets, hcm]
    obtain ⟨g, hgeq, hgge⟩ :
        ∃ g, bfsFuel (mkStack k O) = g + 1 ∧ 4 * (k - 1) ≤ g := by
      have := bfsFuel_mk_ample k O hk
      exact ⟨bfsFuel (mkStack k O) - 1, by omega, by omega⟩
    rw [hgeq]
    by_cases hk1 : 1 < k
    · have hstep := bfs_proc_succ_target k O hk hnd hO 0 h0 (by omega) g [] [] []
        (by simp)
      rw [idx0] at hstep
      simp only [Nat.add_zero, Nat.zero_add, List.nil_append] at hstep
      rw [hstep]
      have hnpk : ∀ x, x ∈ visitSeq k O 1 → x ∉ [k] := by
        intro x hx
        rcases (mem_visitSeq k O hO 1 x).mp hx with ⟨h1, h2⟩ | ⟨j, hj1, hj2, rfl⟩
        · simp only [List.mem_singleton]
          omega
        · have hjne : j ≠ 0 := by omega
          have hixne : O.indexOf j ≠ 0 := by
            intro hc
            exact hjne (indexOf_inj_mk O hnd j 0 hj1 h0 (by rw [hc, idx0]))
          simp only [List.mem_singleton]
          omega
      have hsim := bfs_sim k O hk hnd hO (k - 1) 1 [] g [k] [k] (by omega)
        (Or.inl rfl) hnpk (by omega)
      rw [List.append_nil] at hsim
      rw [hsim]
      rw [targetsFrom_cons k O 0 (by omega), if_pos ⟨h0, by omega⟩]
      simp [idx0]
    · have hstep := bfs_proc_succ_top k O hk hnd hO 0 h0 (by omega) g [] [] []
        (by simp)
      rw [idx0] at hstep
      simp only [Nat.add_zero, Nat.zero_add, List.nil_append] at hstep
      rw [hstep, bfs_nil]
      rw [targetsFrom_cons k O 0 (by omega), if_neg (by rintro ⟨_, h⟩; omega),
        targetsFrom_top k O 1 (by omega)]
      rfl
  · have hprec0 : (mkStack k O).revsAllprecursors 0 = [] :=
      allprec_mk_orig k O hnd hO 0 hk
    have hcm : restackChildrenof (mkStack k O) 0 = fun p => eBlock k O (p + 1) := by
      funext p
      rw [restackChildrenof, hprec0]
      refine cmap_mk_core k O hk hs hnd hO [0] (by simp) ?_ p
      intro idx hj hg
      exact absurd (hg ▸ List.get_mem O idx hj) h0
    rw [hlat, latest_mk_notin k O hnd hO h0, _findrestacktargets, hcm]
    have he0 : eBlock k O 0 = [0] := by
      rw [eBlock, if_pos (by omega), if_neg h0]
      rfl
    have hsim := bfs_sim k O hk hnd hO k 0 [] (bfsFuel (mkStack k O)) [] []
      (by omega) (Or.inl rfl) (by intro x _ hx; cases hx)
      (by have := bfsFuel_mk_ample k O hk; omega)
    rw [he0] at hsim
    simp only [List.append_nil, List.nil_append] at hsim
    rw [hsim]

/-! ### The restack loop on the canonical stack -/

/-- Local form of stability: every non-obsolete revision has only
non-obsolete parents. -/
def ParentStable (σ : Repo) : Prop :=
  ∀ v p, σ.obsB v = false → p ∈ σ.parentrevs v → σ.obsB p = false

/-- Parent-wise stability propagates along the ancestor relation. -/
theorem stable_of_parentStable (σ : Repo) (h : ParentStable σ) : Stable σ := by
  have haux : ∀ f a v, σ.obsB v = false → σ.ancAux f a v = true →
      σ.obsB a = false := by
    intro f
    induction f with
    | zero => intro a v _ hc; cases hc
    | succ f ih =>
      intro a v hv hanc
      rw [Repo.ancAux, List.any_eq_true] at hanc
      obtain ⟨p, hp, hor⟩ := hanc
      have hpo : σ.obsB p = false := h v p hv hp
      rw [Bool.or_eq_true, beq_iff_eq] at hor
      rcases hor with rfl | hor
      · exact hpo
      · exact ih a p hpo hor
  intro v a hv ha
  exact haux σ.numRevs a v hv ha

/-- With no pruning, obsolescence is exactly being a marker source. -/
theorem obsB_no_pruned (σ : Repo) (hp : σ.pruned = []) (v : Nat) :
    σ.obsB v = σ.markers.any (fun m => m.1 == v) := by
  rw [Repo.obsB, hp]
  simp

/-- States whose low revisions still carry the canonical stack's parent
structure: the originals `0 < 1 < ... < k-1` form a chain and the
replacement of the `idx`-th amended position sits on the position's
parent. -/
structure LowRepo (k : Nat) (O : List Nat) (σ : Repo) : Prop where
  wf : WfParents σ
  closed : ClosedParents σ
  nrev : k + O.length ≤ σ.numRevs
  porig : ∀ r, r < k → σ.parentrevs r = if r = 0 then [] else [r - 1]
  psucc : ∀ idx, idx < O.length → σ.parentrevs (k + idx) =
    if O.getD idx 0 = 0 then [] else [O.getD idx 0 - 1]

/-- In a `LowRepo` state the ancestors of an original revision are
exactly the smaller originals. -/
theorem low_anc_orig (k : Nat) (O : List Nat) (σ : Repo) (hL : LowRepo k O σ) :
    ∀ b, b < k → ∀ a, (σ.isAncestor a b = true ↔ a < b) := by
  intro b
  induction b using Nat.strong_induction_on with
  | _ b ih =>
    intro hb a
    have hbn : b < σ.numRevs := by
      have := hL.nrev
      omega
    rw [isAncestor_eq_fuel σ hL.wf (b + 1) a b hbn (by omega), Repo.ancAux,
      hL.porig b hb]
    by_cases hb0 : b = 0
    · subst hb0
      simp
    · rw [if_neg hb0]
      simp only [List.any_cons, List.any_nil, Bool.or_false, Bool.or_eq_true,
        beq_iff_eq]
      have hfuel : σ.ancAux b a (b - 1) = σ.isAncestor a (b - 1) := by
        have h1 : b - 1 < σ.numRevs := by omega
        rw [isAncestor_eq_fuel σ hL.wf b a (b - 1) h1 (by omega)]
      rw [hfuel, ih (b - 1) (by omega) (by omega) a]
      omega

/-- In a `LowRepo` state the ancestors of the `idx`-th replacement are
exactly the originals below the amended position. -/
theorem low_anc_succ (k : Nat) (O : List Nat) (σ : Repo) (hL : LowRepo k O σ)
    (hO : ∀ i ∈ O, i < k) (idx : Nat) (hj : idx < O.length) (a : Nat) :
    (σ.isAncestor a (k + idx) = true ↔ a < O.getD idx 0) := by
  have hbn : k + idx < σ.numRevs := by
    have := hL.nrev
    omega
  rw [isAncestor_eq_fuel σ hL.wf (k + idx + 1) a (k + idx) hbn (by omega),
    Repo.ancAux, hL.psucc idx hj]
  have hik : O.getD idx 0 < k := by
    have hmem : O.getD idx 0 ∈ O := by
      rw [List.getD_eq_get O 0 hj]
      exact List.get_mem O idx hj
    exact hO _ hmem
  by_cases hi0 : O.getD idx 0 = 0
  · rw [if_pos hi0, hi0]
    simp
  · rw [if_neg hi0]
    simp only [List.any_cons, List.any_nil, Bool.or_false, Bool.or_eq_true,
      beq_iff_eq]
    have hfuel : σ.ancAux (k + idx) a (O.getD idx 0 - 1) =
        σ.isAncestor a (O.getD idx 0 - 1) := by
      have h1 : O.getD idx 0 - 1 < σ.numRevs := by
        have := hL.nrev
        omega
      rw [isAncestor_eq_fuel σ hL.wf (k + idx) a (O.getD idx 0 - 1) h1 (by omega)]
    rw [hfuel, low_anc_orig k O σ hL (O.getD idx 0 - 1) (by omega) a]
    omega

/-- A filtered range is sorted ascending. -/
theorem sorted_filter_range (n : Nat) (p : Nat → Bool) :
    List.Sorted (· < ·) ((List.range n).filter p) :=
  (List.pairwise_lt_range n).filter p

/-- A filtered range is duplicate-free. -/
theorem nodup_filter_range (n : Nat) (p : Nat → Bool) :
    ((List.range n).filter p).Nodup :=
  (List.nodup_range n).filter p

/-- On an ascending list, `indexOf` is monotone on members. -/
theorem indexOf_mono_sorted (D : List Nat) (hsD : List.Sorted (· < ·) D)
    (a b : Nat) (ha : a ∈ D) (hb : b ∈ D) (hab : a < b) :
    D.indexOf a < D.indexOf b := by
  have hal := List.indexOf_lt_length.mpr ha
  have hbl := List.indexOf_lt_length.mpr hb
  rcases Nat.lt_or_ge (D.indexOf a) (D.indexOf b) with hlt | hge
  · exact hlt
  · exfalso
    rcases Nat.lt_or_ge (D.indexOf b) (D.indexOf a) with hlt2 | hge2
    · have hpair := List.pairwise_iff_get.mp hsD ⟨D.indexOf b, hbl⟩
        ⟨D.indexOf a, hal⟩ hlt2
      rw [List.indexOf_get hal, List.indexOf_get hbl] at hpair
      omega
    · have heq : D.indexOf a = D.indexOf b := by omega
      have h1 : D.get ⟨D.indexOf a, hal⟩ = a := List.indexOf_get hal
      have h2 : D.get ⟨D.indexOf b, hbl⟩ = b := List.indexOf_get hbl
      have h3 : D.get ⟨D.indexOf a, hal⟩ = D.get ⟨D.indexOf b, hbl⟩ := by
        congr 1
        exact Fin.ext heq
      rw [h1, h2] at h3
      omega

/-- The head of a descending list. -/
theorem head?_mem_list (R : List Nat) (x : Nat) (hx : R.head? = some x) :
    x ∈ R := by
  cases R with
  | nil => simp at hx
  | cons a l =>
    have ha : a = x := by simpa using hx
    rw [← ha]
    exact List.mem_cons_self a l

/-- The head of a descending-sorted list bounds every member. -/
theorem head_max_of_sorted_gt (R : List Nat) (hsR : List.Sorted (· > ·) R)
    (x : Nat) (hx : R.head? = some x) : ∀ y ∈ R, y ≤ x := by
  cases R with
  | nil => simp at hx
  | cons a l =>
    have ha : a = x := by simpa using hx
    subst ha
    intro y hy
    rcases List.mem_cons.mp hy with rfl | hy
    · exact Nat.le_refl y
    · exact Nat.le_of_lt ((List.sorted_cons.mp hsR).1 y hy)

/-- The loop invariant of `restack` on the canonical stack.  `R` is the
descending list of amended positions whose replacements are still to be
processed; the clauses record the facts about the evolving state the next
step and the final stability argument rely on. -/
structure RInv (k : Nat) (O : List Nat) (R : List Nat) (σ : Repo) : Prop where
  low : LowRepo k O σ
  prun : σ.pruned = []
  strip : σ.stripped = []
  bks : σ.bookmarks = []
  mfst : ∀ m ∈ σ.markers, m.1 < σ.numRevs
  inh : ∀ y ∈ R, y ∈ σ.inhibited
  rmem : ∀ y ∈ R, y ∈ O ∧ y + 1 < k
  rsort : List.Sorted (· > ·) R
  rcov : ∀ x, R.head? = some x → ∀ y, y ≤ x → (y ∈ O ↔ y ∈ R)
  obslow : ∀ x, R.head? = some x → ∀ v, v < x → σ.obsB v = decide (v ∈ O)
  inmk : ∀ y ∈ R, σ.markers.filter (fun m => m.2 == k + O.indexOf y) =
    [(y, k + O.indexOf y)]
  inlow : ∀ y ∈ R, σ.markers.filter (fun m => m.2 == y) = []
  sfree : ∀ y ∈ R, σ.obsB (k + O.indexOf y) = false
  cover : ∀ x, R.head? = some x → ∀ v, v < σ.numRevs → σ.obsB v = false →
    v < x ∨ (∃ y ∈ R, v = k + O.indexOf y) ∨ σ.isAncestor x v = true

/-- The canonical stack satisfies the invariant with the full descending
target-position list. -/
theorem rinv_init (k : Nat) (O : List Nat) (hk : 1 ≤ k)
    (hs : List.Sorted (· < ·) O) (hnd : O.Nodup) (hO : ∀ i ∈ O, i < k) :
    RInv k O ((O.filter (fun y => decide (y + 1 < k))).reverse) (mkStack k O) := by
  have hnum : (mkStack k O).numRevs = k + O.length := rfl
  have hmemR : ∀ y, y ∈ (O.filter (fun y => decide (y + 1 < k))).reverse ↔
      (y ∈ O ∧ y + 1 < k) := by
    intro y
    simp [List.mem_reverse, List.mem_filter]
  have hsortR : List.Sorted (· > ·)
      ((O.filter (fun y => decide (y + 1 < k))).reverse) := by
    have h1 := hs.filter (fun y => decide (y + 1 < k))
    rw [List.Sorted, List.pairwise_reverse]
    exact h1
  refine ⟨⟨wf_mkStack k O hO, closed_mkStack k O, by omega, mk_parent_orig k O, ?_⟩,
    rfl, rfl, rfl, ?_, ?_, ?_, hsortR, ?_, ?_, ?_, ?_, ?_, ?_⟩
  · intro idx hj
    rw [List.getD_eq_get O 0 hj]
    exact mk_parent_succ k O idx hj
  · rintro ⟨a, b⟩ hm
    obtain ⟨j, hj, hget, _⟩ := (mem_mkMarkers k O 0 a b).mp hm
    have haO : a ∈ O := List.get?_mem hget
    have := hO a haO
    simp only [hnum]
    omega
  · intro y hy
    exact ((hmemR y).mp hy).1
  · intro y hy
    exact (hmemR y).mp hy
  · intro x hx y hyx
    have hxR := head?_mem_list _ x hx
    have hx1 : x + 1 < k := ((hmemR x).mp hxR).2
    constructor
    · intro hyO
      exact (hmemR y).mpr ⟨hyO, by omega⟩
    · intro hyR
      exact ((hmemR y).mp hyR).1
  · intro x _ v _
    exact obs_mkStack k O v
  · intro y hy
    have hyO := ((hmemR y).mp hy).1
    have hjl : O.indexOf y < O.length := List.indexOf_lt_length.mpr hyO
    have hres := filter_snd_mkMarkers k O 0 (O.indexOf y) hjl
    rw [List.indexOf_get hjl] at hres
    rw [show k + 0 + O.indexOf y = k + O.indexOf y from by omega] at hres
    exact hres
  · intro y hy
    have hyO := ((hmemR y).mp hy).1
    have := hO y hyO
    exact filter_snd_mkMarkers_out k O 0 y (by omega)
  · intro y hy
    have hyO := ((hmemR y).mp hy).1
    rw [obs_mkStack]
    simp only [decide_eq_false_iff_not]
    intro hc
    have := hO _ hc
    omega
  · intro x hx v hv hobs
    have hxR := head?_mem_list _ x hx
    have hxO : x ∈ O := ((hmemR x).mp hxR).1
    rw [obs_mkStack] at hobs
    simp only [decide_eq_false_iff_not] at hobs
    rw [hnum] at hv
    by_cases hvk : v < k
    · rcases Nat.lt_or_ge v x with h | h
      · exact Or.inl h
      · have hne : v ≠ x := by
          intro hc
          rw [hc] at hobs
          exact hobs hxO
        right
        right
        rw [anc_mk_orig k O hk hO v hvk x]
        omega
    · have hj : v - k < O.length := by omega
      have hyO : O.get ⟨v - k, hj⟩ ∈ O := List.get_mem O _ _
      rcases Nat.lt_or_ge x (O.get ⟨v - k, hj⟩) with h | h
      · right
        right
        rw [show v = k + (v - k) from by omega, anc_mk_succ k O hk hO (v - k) hj x]
        exact h
      · right
        left
        have hx1 : x + 1 < k := ((hmemR x).mp hxR).2
        refine ⟨O.get ⟨v - k, hj⟩, (hmemR _).mpr ⟨hyO, by omega⟩, ?_⟩
        have hix : O.indexOf (O.get ⟨v - k, hj⟩) = v - k :=
          List.get_indexOf hnd ⟨v - k, hj⟩
        omega

/-- With no restack targets (every amended position is the stack top),
the canonical stack is already parent-stable. -/
theorem parentStable_mk_noTargets (k : Nat) (O : List Nat)
    (hO : ∀ i ∈ O, i < k)
    (hempty : O.filter (fun y => decide (y + 1 < k)) = []) :
    ParentStable (mkStack k O) := by
  have hnotgt : ∀ y ∈ O, ¬(y + 1 < k) := by
    intro y hy
    have := List.filter_eq_nil_iff.mp hempty y hy
    simpa using this
  intro v p hv hp
  rw [obs_mkStack] at hv ⊢
  simp only [decide_eq_false_iff_not] at hv ⊢
  intro hpO
  have hpk := hO p hpO
  have hp1 : ¬(p + 1 < k) := hnotgt p hpO
  rw [mk_parent_mem k O p v] at hp
  rcases hp with ⟨h1, h2, h3⟩ | ⟨h1, h2, h3, h4⟩
  · omega
  · have hyO : O.getD (v - k) 0 ∈ O := by
      rw [List.getD_eq_get O 0 h2]
      exact List.get_mem O _ _
    have := hO _ hyO
    omega

/-- `_restackonce` under the modelled rebase never raises. -/
theorem restackonce_model (σ : Repo) (rev : Nat) :
    _restackonce rebaseModel σ rev =
      (if (σ.revsDescMinus (σ.revsAllprecursors rev)).isEmpty then
        Except.ok (none, σ)
      else
        Except.ok (some (σ.revsDescMinus (σ.revsAllprecursors rev), rev),
          _deinhibit (_clearpreamend
            (rebaseApply σ (σ.revsDescMinus (σ.revsAllprecursors rev)) rev)
            (σ.revsAllprecursors rev))
            (σ.revsAllprecursors rev))) := rfl

/-- Membership in the source set `_restackonce` rebases, when the
precursor set is the singleton `[x]`: the visible proper descendants of
`x`. -/
theorem step_desc_mem (σ : Repo) (hwf : WfParents σ) (x d : Nat) :
    d ∈ σ.revsDescMinus [x] ↔
      (d < σ.numRevs ∧ σ.visibleB d = true ∧ σ.isAncestor x d = true) := by
  rw [Repo.revsDescMinus, List.mem_filter, List.mem_range]
  constructor
  · rintro ⟨hd, hcond⟩
    rw [Bool.and_eq_true, Bool.and_eq_true] at hcond
    obtain ⟨⟨hvis, hany⟩, hnc⟩ := hcond
    rw [List.any_cons, List.any_nil, Bool.or_false, Bool.or_eq_true,
      beq_iff_eq] at hany
    rcases hany with rfl | hanc
    · exfalso
      simp at hnc
    · exact ⟨hd, hvis, hanc⟩
  · rintro ⟨hd, hvis, hanc⟩
    have hxd : x < d := anc_lt σ hwf σ.numRevs x d hanc
    refine ⟨hd, ?_⟩
    rw [Bool.and_eq_true, Bool.and_eq_true]
    refine ⟨⟨hvis, ?_⟩, ?_⟩
    · rw [List.any_cons]
      simp [hanc]
    · simp
      omega

/-- Under the invariant, the visible precursors of the replacement of the
next position are exactly that position. -/
theorem step_prec (k : Nat) (O : List Nat) (hk : 1 ≤ k) (hO : ∀ i ∈ O, i < k)
    (x : Nat) (R' : List Nat) (σ : Repo) (hI : RInv k O (x :: R') σ) :
    σ.revsAllprecursors (k + O.indexOf x) = [x] := by
  have hxO := (hI.rmem x (List.mem_cons_self x R')).1
  have hn := hI.low.nrev
  have hxk : x < k := hO x hxO
  have hreach := obsReach_singleton_inedge σ x (k + O.indexOf x)
    (hI.inmk x (List.mem_cons_self x R')) (hI.inlow x (List.mem_cons_self x R'))
  have hvisx : σ.visibleB x = true := visible_of_inhibited σ x hI.strip (by omega)
    (hI.inh x (List.mem_cons_self x R'))
  rw [Repo.revsAllprecursors]
  apply filter_range_singleton σ.numRevs _ x (by omega)
  intro p hp
  rw [Bool.and_eq_true]
  constructor
  · rintro ⟨h1, h2⟩
    exact (hreach p).mp h2
  · rintro rfl
    exact ⟨hvisx, (hreach p).mpr rfl⟩

/-- The invariant survives a no-op step (empty source set). -/
theorem rinv_step_keep (k : Nat) (O : List Nat) (hk : 1 ≤ k)
    (hnd : O.Nodup) (hO : ∀ i ∈ O, i < k)
    (x : Nat) (R' : List Nat) (σ : Repo) (hI : RInv k O (x :: R') σ)
    (hD : σ.revsDescMinus [x] = []) :
    RInv k O R' σ ∧ (R' = [] → ParentStable σ) := by
  have hxmem : x ∈ x :: R' := List.mem_cons_self x R'
  have hxO := (hI.rmem x hxmem).1
  have hx1 := (hI.rmem x hxmem).2
  have hxk : x < k := by omega
  have hn := hI.low.nrev
  have ixl : O.indexOf x < O.length := List.indexOf_lt_length.mpr hxO
  have hgetx : O.getD (O.indexOf x) 0 = x := by
    rw [List.getD_eq_get O 0 ixl]
    exact List.indexOf_get ixl
  have htail : ∀ y ∈ R', y < x := (List.sorted_cons.mp hI.rsort).1
  have hhead : (x :: R').head? = some x := rfl
  have hnovis : ∀ d, d < σ.numRevs → σ.visibleB d = true →
      σ.isAncestor x d = true → False := by
    intro d h1 h2 h3
    have := (step_desc_mem σ hI.low.wf x d).mpr ⟨h1, h2, h3⟩
    rw [hD] at this
    cases this
  have hcov' : ∀ v, v < σ.numRevs → σ.obsB v = false →
      v < x ∨ (∃ y ∈ x :: R', v = k + O.indexOf y) ∨ σ.isAncestor x v = true :=
    hI.cover x hhead
  have hobsl : ∀ v, v < x → σ.obsB v = decide (v ∈ O) := hI.obslow x hhead
  constructor
  · refine ⟨hI.low, hI.prun, hI.strip, hI.bks, hI.mfst, ?_, ?_,
      (List.sorted_cons.mp hI.rsort).2, ?_, ?_, ?_, ?_, ?_, ?_⟩
    · intro y hy
      exact hI.inh y (List.mem_cons_of_mem x hy)
    · intro y hy
      exact hI.rmem y (List.mem_cons_of_mem x hy)
    · intro x' hx' y hyx
      have hx'R : x' ∈ R' := head?_mem_list R' x' hx'
      have hx'x : x' < x := htail x' hx'R
      have h1 := hI.rcov x hhead y (by omega)
      constructor
      · intro hyO
        rcases List.mem_cons.mp (h1.mp hyO) with rfl | hyR
        · omega
        · exact hyR
      · intro hyR
        exact h1.mpr (List.mem_cons_of_mem x hyR)
    · intro x' hx' v hv
      have hx'x : x' < x := htail x' (head?_mem_list R' x' hx')
      exact hobsl v (by omega)
    · intro y hy
      exact hI.inmk y (List.mem_cons_of_mem x hy)
    · intro y hy
      exact hI.inlow y (List.mem_cons_of_mem x hy)
    · intro y hy
      exact hI.sfree y (List.mem_cons_of_mem x hy)
    · intro x' hx' v hv hobs
      have hx'R : x' ∈ R' := head?_mem_list R' x' hx'
      have hx'x : x' < x := htail x' hx'R
      have hx'O := (hI.rmem x' (List.mem_cons_of_mem x hx'R)).1
      rcases hcov' v hv hobs with h | h | h
      · rcases Nat.lt_or_ge v x' with h2 | h2
        · exact Or.inl h2
        · have hne : v ≠ x' := by
            intro hc
            rw [hobsl v h, hc] at hobs
            simp [hx'O] at hobs
          right
          right
          rw [low_anc_orig k O σ hI.low v (by omega) x']
          omega
      · obtain ⟨y, hyR, rfl⟩ := h
        rcases List.mem_cons.mp hyR with rfl | hyR'
        · right
          right
          rw [low_anc_succ k O σ hI.low hO (O.indexOf y) ixl x', hgetx]
          omega
        · exact Or.inr (Or.inl ⟨y, hyR', rfl⟩)
      · exfalso
        exact hnovis v hv (visible_of_not_obs σ v hI.strip (by omega) hobs) h
  · intro hR' v p hv hp
    rcases Nat.lt_or_ge v σ.numRevs with hvn | hvn
    · subst hR'
      rcases hcov' v hvn hv with h | h | h
      · rw [hI.low.porig v (by omega)] at hp
        by_cases hv0 : v = 0
        · rw [if_pos hv0] at hp
          cases hp
        · rw [if_neg hv0] at hp
          have hpv : p = v - 1 := List.mem_singleton.mp hp
          rw [hobsl p (by omega)]
          simp only [decide_eq_false_iff_not]
          intro hpO
          have h2 := (hI.rcov x hhead p (by omega)).mp hpO
          have := List.mem_singleton.mp h2
          omega
      · obtain ⟨y, hyR, rfl⟩ := h
        have hyx : y = x := List.mem_singleton.mp hyR
        subst hyx
        rw [hI.low.psucc (O.indexOf y) ixl, hgetx] at hp
        by_cases hy0 : y = 0
        · rw [if_pos hy0] at hp
          cases hp
        · rw [if_neg hy0] at hp
          have hpv : p = y - 1 := List.mem_singleton.mp hp
          rw [hobsl p (by omega)]
          simp only [decide_eq_false_iff_not]
          intro hpO
          have h2 := (hI.rcov y hhead p (by omega)).mp hpO
          have := List.mem_singleton.mp h2
          omega
      · exfalso
        exact hnovis v hvn (visible_of_not_obs σ v hI.strip (by omega) hv) h
    · rw [hI.low.closed v hvn] at hp
      cases hp

/-- The invariant survives a rebase step: rebasing the visible proper
descendants of the next position onto its replacement, then lifting the
position's inhibition marker. -/
theorem rinv_step_rebase (k : Nat) (O : List Nat) (hk : 1 ≤ k)
    (hnd : O.Nodup) (hO : ∀ i ∈ O, i < k)
    (x : Nat) (R' : List Nat) (σ : Repo) (hI : RInv k O (x :: R') σ) :
    RInv k O R'
        (_deinhibit (_clearpreamend
          (rebaseApply σ (σ.revsDescMinus [x]) (k + O.indexOf x)) [x]) [x]) ∧
      (R' = [] → ParentStable
        (_deinhibit (_clearpreamend
          (rebaseApply σ (σ.revsDescMinus [x]) (k + O.indexOf x)) [x]) [x])) := by
  have hxmem : x ∈ x :: R' := List.mem_cons_self x R'
  have hxO := (hI.rmem x hxmem).1
  have hx1 := (hI.rmem x hxmem).2
  have hxk : x < k := by omega
  have hn := hI.low.nrev
  have ixl : O.indexOf x < O.length := List.indexOf_lt_length.mpr hxO
  have hgetx : O.getD (O.indexOf x) 0 = x := by
    rw [List.getD_eq_get O 0 ixl]
    exact List.indexOf_get ixl
  have htail : ∀ y ∈ R', y < x := (List.sorted_cons.mp hI.rsort).1
  have hhead : (x :: R').head? = some x := rfl
  have hcov' : ∀ v, v < σ.numRevs → σ.obsB v = false →
      v < x ∨ (∃ y ∈ x :: R', v = k + O.indexOf y) ∨ σ.isAncestor x v = true :=
    hI.cover x hhead
  have hobsl : ∀ v, v < x → σ.obsB v = decide (v ∈ O) := hI.obslow x hhead
  have hwfσ := hI.low.wf
  set D := σ.revsDescMinus [x] with hDdef
  set σ' := _deinhibit (_clearpreamend
    (rebaseApply σ D (k + O.indexOf x)) [x]) [x] with hσ'def
  have hnum' : σ'.numRevs = σ.numRevs + D.length := rfl
  have hmk' : σ'.markers = σ.markers ++ mkMarkers σ.numRevs D 0 := rfl
  have hpr' : σ'.pruned = [] := hI.prun
  have hst' : σ'.stripped = [] := hI.strip
  have hinh' : σ'.inhibited =
      (σ.inhibited.filter (fun r => !(D.contains r))).filter
        (fun r => !([x].contains r)) := rfl
  have hbk' : σ'.bookmarks = [] := by
    rw [show σ'.bookmarks =
      (σ.bookmarks.map (fun b =>
        if D.contains b.2 then (b.1, σ.numRevs + D.indexOf b.2) else b)).filter
        (fun b => !([x].contains b.2 && b.1.endsWith ".preamend")) from rfl,
      hI.bks]
    rfl
  have hp'r : ∀ r, σ'.parentrevs r =
      if r < σ.numRevs then σ.parentrevs r else
        (match D.get? (r - σ.numRevs) with
         | some s => (σ.parentrevs s).map
             (fun p => if D.contains p then σ.numRevs + D.indexOf p
               else (k + O.indexOf x))
         | none => []) := fun r => rfl
  have hp_old : ∀ r, r < σ.numRevs → σ'.parentrevs r = σ.parentrevs r := by
    intro r hr
    rw [hp'r r, if_pos hr]
  have hp_copy : ∀ j, (hj : j < D.length) → σ'.parentrevs (σ.numRevs + j) =
      (σ.parentrevs (D.get ⟨j, hj⟩)).map
        (fun p => if D.contains p then σ.numRevs + D.indexOf p
          else (k + O.indexOf x)) := by
    intro j hj
    rw [hp'r (σ.numRevs + j), if_neg (by omega),
      show σ.numRevs + j - σ.numRevs = j from by omega, List.get?_eq_get hj]
  have hp_out : ∀ r, σ.numRevs + D.length ≤ r → σ'.parentrevs r = [] := by
    intro r hr
    rw [hp'r r, if_neg (by omega), List.get?_eq_none.mpr (by omega)]
  have hDchar : ∀ d, d ∈ D ↔
      (d < σ.numRevs ∧ σ.visibleB d = true ∧ σ.isAncestor x d = true) := by
    intro d
    rw [hDdef]
    exact step_desc_mem σ hwfσ x d
  have hDgt : ∀ d ∈ D, x < d := by
    intro d hd
    exact anc_lt σ hwfσ σ.numRevs x d ((hDchar d).mp hd).2.2
  have hDlt : ∀ d ∈ D, d < σ.numRevs := fun d hd => ((hDchar d).mp hd).1
  have hDsort : List.Sorted (· < ·) D := by
    rw [hDdef, Repo.revsDescMinus]
    exact sorted_filter_range σ.numRevs _
  have hDnd : D.Nodup := by
    rw [hDdef, Repo.revsDescMinus]
    exact nodup_filter_range σ.numRevs _
  have hnotD_low : ∀ v, v ≤ x → v ∉ D := by
    intro v hv hvD
    have := hDgt v hvD
    omega
  have hsnotD : ∀ y, y ∈ O → y ≤ x → (k + O.indexOf y) ∉ D := by
    intro y hyO hyx hcD
    have hjl : O.indexOf y < O.length := List.indexOf_lt_length.mpr hyO
    have hgety : O.getD (O.indexOf y) 0 = y := by
      rw [List.getD_eq_get O 0 hjl]
      exact List.indexOf_get hjl
    have hanc := ((hDchar _).mp hcD).2.2
    rw [low_anc_succ k O σ hI.low hO (O.indexOf y) hjl x, hgety] at hanc
    omega
  have hobs' : ∀ v, σ'.obsB v = (σ.obsB v || decide (v ∈ D)) := by
    intro v
    rw [obsB_no_pruned σ' hpr', hmk', List.any_append, any_fst_mkMarkers,
      obsB_no_pruned σ hI.prun]
  have hfresh : ∀ v, σ.numRevs ≤ v → σ'.obsB v = false := by
    intro v hv
    rw [hobs' v, Bool.or_eq_false_iff]
    constructor
    · rw [obsB_no_pruned σ hI.prun, List.any_eq_false]
      intro m hm
      have := hI.mfst m hm
      simp only [beq_iff_eq]
      omega
    · simp only [decide_eq_false_iff_not]
      intro hc
      have := hDlt v hc
      omega
  have hlow' : LowRepo k O σ' := by
    refine ⟨?_, ?_, ?_, ?_, ?_⟩
    · intro r p hp
      rcases Nat.lt_or_ge r σ.numRevs with hr | hr
      · rw [hp_old r hr] at hp
        exact hwfσ r p hp
      · rcases Nat.lt_or_ge r (σ.numRevs + D.length) with hr2 | hr2
        · have hj : r - σ.numRevs < D.length := by omega
          have hreq : r = σ.numRevs + (r - σ.numRevs) := by omega
          rw [hreq, hp_copy (r - σ.numRevs) hj] at hp
          obtain ⟨q, hq, hfq⟩ := List.mem_map.mp hp
          by_cases hqD : D.contains q
          · rw [if_pos hqD] at hfq
            have hqmem : q ∈ D := (contains_true_iff D q).mp hqD
            have hlt := indexOf_mono_sorted D hDsort q _ hqmem
              (List.get_mem D _ _) (hwfσ _ q hq)
            rw [List.get_indexOf hDnd ⟨r - σ.numRevs, hj⟩] at hlt
            have hlt2 : D.indexOf q < r - σ.numRevs := hlt
            rw [← hfq]
            omega
          · rw [if_neg hqD] at hfq
            rw [← hfq]
            omega
        · rw [hp_out r hr2] at hp
          cases hp
    · intro r hr
      rw [hnum'] at hr
      exact hp_out r hr
    · rw [hnum']
      omega
    · intro r hr
      rw [hp_old r (by omega)]
      exact hI.low.porig r hr
    · intro idx hj
      rw [hp_old (k + idx) (by omega)]
      exact hI.low.psucc idx hj
  have hanc_t : ∀ a, σ'.isAncestor a (k + O.indexOf x) = true ↔ a < x := by
    intro a
    have h := low_anc_succ k O σ' hlow' hO (O.indexOf x) ixl a
    rw [hgetx] at h
    exact h
  have hanc_copy : ∀ x', x' < x → ∀ v, σ.numRevs ≤ v →
      v < σ.numRevs + D.length → σ'.isAncestor x' v = true := by
    intro x' hx'x v
    induction v using Nat.strong_induction_on with
    | _ v ih =>
      intro hv1 hv2
      have hj : v - σ.numRevs < D.length := by omega
      have hreq : v = σ.numRevs + (v - σ.numRevs) := by omega
      have hsD : D.get ⟨v - σ.numRevs, hj⟩ ∈ D := List.get_mem D _ _
      have hanc_s := ((hDchar _).mp hsD).2.2
      have hanc_parent_ex : ∀ f a b, σ.ancAux f a b = true →
          ∃ q, q ∈ σ.parentrevs b := by
        intro f a b h
        cases f with
        | zero => cases h
        | succ f =>
          rw [Repo.ancAux, List.any_eq_true] at h
          obtain ⟨q, hq, _⟩ := h
          exact ⟨q, hq⟩
      obtain ⟨q, hq⟩ := hanc_parent_ex σ.numRevs x _ hanc_s
      have hpar : (if D.contains q then σ.numRevs + D.indexOf q
          else (k + O.indexOf x)) ∈ σ'.parentrevs v := by
        rw [hreq, hp_copy (v - σ.numRevs) hj]
        exact List.mem_map.mpr ⟨q, hq, rfl⟩
      have hvn' : v < σ'.numRevs := by
        rw [hnum']
        omega
      by_cases hqD : D.contains q
      · rw [if_pos hqD] at hpar
        have hqmem : q ∈ D := (contains_true_iff D q).mp hqD
        have hqlt : q < D.get ⟨v - σ.numRevs, hj⟩ := hwfσ _ q hq
        have hidxlt : D.indexOf q < v - σ.numRevs := by
          have h := indexOf_mono_sorted D hDsort q _ hqmem hsD hqlt
          rw [List.get_indexOf hDnd ⟨v - σ.numRevs, hj⟩] at h
          exact h
        have hIH := ih (σ.numRevs + D.indexOf q) (by omega) (by omega) (by
          have := List.indexOf_lt_length.mpr hqmem
          omega)
        exact anc_trans σ' hlow'.wf hlow'.closed v x' (σ.numRevs + D.indexOf q)
          hIH (anc_parent σ' hlow'.wf _ v hpar hvn')
      · rw [if_neg hqD] at hpar
        exact anc_trans σ' hlow'.wf hlow'.closed v x' (k + O.indexOf x)
          ((hanc_t x').mpr hx'x) (anc_parent σ' hlow'.wf _ v hpar hvn')
  constructor
  · refine ⟨hlow', hpr', hst', hbk', ?_, ?_, ?_,
      (List.sorted_cons.mp hI.rsort).2, ?_, ?_, ?_, ?_, ?_, ?_⟩
    · rintro ⟨a, b⟩ hm
      rw [hmk'] at hm
      rcases List.mem_append.mp hm with hm | hm
      · have := hI.mfst _ hm
        rw [hnum']
        simp only at this ⊢
        omega
      · obtain ⟨j, hj, hget, _⟩ := (mem_mkMarkers σ.numRevs D 0 a b).mp hm
        have haD : a ∈ D := List.get?_mem hget
        have := hDlt a haD
        rw [hnum']
        simp only
        omega
    · intro y hy
      have h1 : y ∈ σ.inhibited := hI.inh y (List.mem_cons_of_mem x hy)
      have h2 : D.contains y = false :=
        (contains_false_iff D y).mpr (hnotD_low y (Nat.le_of_lt (htail y hy)))
      have h3 : [x].contains y = false := by
        have hlt := htail y hy
        simp only [List.contains_cons, List.contains_nil, Bool.or_false,
          beq_eq_false_iff_ne]
        omega
      rw [hinh']
      exact List.mem_filter.mpr ⟨List.mem_filter.mpr ⟨h1, by rw [h2]; rfl⟩,
        by rw [h3]; rfl⟩
    · intro y hy
      exact hI.rmem y (List.mem_cons_of_mem x hy)
    · intro x' hx' y hyx
      have hx'R : x' ∈ R' := head?_mem_list R' x' hx'
      have hx'x : x' < x := htail x' hx'R
      have h1 := hI.rcov x hhead y (by omega)
      constructor
      · intro hyO
        rcases List.mem_cons.mp (h1.mp hyO) with rfl | hyR
        · omega
        · exact hyR
      · intro hyR
        exact h1.mpr (List.mem_cons_of_mem x hyR)
    · intro x' hx' v hv
      have hx'x : x' < x := htail x' (head?_mem_list R' x' hx')
      rw [hobs' v, hobsl v (by omega)]
      have : v ∉ D := hnotD_low v (by omega)
      simp [this]
    · intro y hy
      have hyO := (hI.rmem y (List.mem_cons_of_mem x hy)).1
      have hjl : O.indexOf y < O.length := List.indexOf_lt_length.mpr hyO
      rw [hmk', List.filter_append, hI.inmk y (List.mem_cons_of_mem x hy),
        filter_snd_mkMarkers_out σ.numRevs D 0 (k + O.indexOf y)
          (Or.inl (by omega)), List.append_nil]
    · intro y hy
      have hyO := (hI.rmem y (List.mem_cons_of_mem x hy)).1
      have := hO y hyO
      rw [hmk', List.filter_append, hI.inlow y (List.mem_cons_of_mem x hy),
        filter_snd_mkMarkers_out σ.numRevs D 0 y (Or.inl (by omega)),
        List.append_nil]
    · intro y hy
      have hyO := (hI.rmem y (List.mem_cons_of_mem x hy)).1
      have h1 := hI.sfree y (List.mem_cons_of_mem x hy)
      have h2 : (k + O.indexOf y) ∉ D :=
        hsnotD y hyO (Nat.le_of_lt (htail y hy))
      rw [hobs' _, h1]
      simp [h2]
    · intro x' hx' v hv hobs
      have hx'R : x' ∈ R' := head?_mem_list R' x' hx'
      have hx'x : x' < x := htail x' hx'R
      have hx'O := (hI.rmem x' (List.mem_cons_of_mem x hx'R)).1
      rw [hnum'] at hv
      rcases Nat.lt_or_ge v σ.numRevs with hvn | hvn
      · have hobsv : σ.obsB v = false ∧ v ∉ D := by
          rw [hobs' v, Bool.or_eq_false_iff] at hobs
          exact ⟨hobs.1, by simpa using hobs.2⟩
        rcases hcov' v hvn hobsv.1 with h | h | h
        · rcases Nat.lt_or_ge v x' with h2 | h2
          · exact Or.inl h2
          · have hvO : v ∉ O := by
              have h3 := hobsl v h
              rw [hobsv.1] at h3
              simpa using h3.symm
            have hne : v ≠ x' := by
              intro hc
              rw [hc] at hvO
              exact hvO hx'O
            right
            right
            rw [low_anc_orig k O σ' hlow' v (by omega) x']
            omega
        · obtain ⟨y, hyR, rfl⟩ := h
          rcases List.mem_cons.mp hyR with rfl | hyR'
          · right
            right
            exact (hanc_t x').mpr hx'x
          · exact Or.inr (Or.inl ⟨y, hyR', rfl⟩)
        · exfalso
          have hvis := visible_of_not_obs σ v hI.strip (by omega) hobsv.1
          exact hobsv.2 ((hDchar v).mpr ⟨hvn, hvis, h⟩)
      · right
        right
        exact hanc_copy x' hx'x v hvn (by omega)
  · intro hR' v p hv hp
    subst hR'
    rcases Nat.lt_or_ge v σ.numRevs with hvn | hvn
    · have hobsv : σ.obsB v = false ∧ v ∉ D := by
        rw [hobs' v, Bool.or_eq_false_iff] at hv
        exact ⟨hv.1, by simpa using hv.2⟩
      rw [hp_old v hvn] at hp
      rcases hcov' v hvn hobsv.1 with h | h | h
      · rw [hI.low.porig v (by omega)] at hp
        by_cases hv0 : v = 0
        · rw [if_pos hv0] at hp
          cases hp
        · rw [if_neg hv0] at hp
          have hpv : p = v - 1 := List.mem_singleton.mp hp
          have hpO : p ∉ O := by
            intro hpO
            have h2 := (hI.rcov x hhead p (by omega)).mp hpO
            have := List.mem_singleton.mp h2
            omega
          rw [hobs' p, hobsl p (by omega)]
          have : p ∉ D := hnotD_low p (by omega)
          simp [this, hpO]
      · obtain ⟨y, hyR, rfl⟩ := h
        have hyx : y = x := List.mem_singleton.mp hyR
        subst hyx
        rw [hI.low.psucc (O.indexOf y) ixl, hgetx] at hp
        by_cases hy0 : y = 0
        · rw [if_pos hy0] at hp
          cases hp
        · rw [if_neg hy0] at hp
          have hpv : p = y - 1 := List.mem_singleton.mp hp
          have hpO : p ∉ O := by
            intro hpO
            have h2 := (hI.rcov y hhead p (by omega)).mp hpO
            have := List.mem_singleton.mp h2
            omega
          rw [hobs' p, hobsl p (by omega)]
          have : p ∉ D := hnotD_low p (by omega)
          simp [this, hpO]
      · exfalso
        have hvis := visible_of_not_obs σ v hI.strip (by omega) hobsv.1
        exact hobsv.2 ((hDchar v).mpr ⟨hvn, hvis, h⟩)
    · rcases Nat.lt_or_ge v (σ.numRevs + D.length) with hv2 | hv2
      · have hj : v - σ.numRevs < D.length := by omega
        rw [show v = σ.numRevs + (v - σ.numRevs) from by omega,
          hp_copy (v - σ.numRevs) hj] at hp
        obtain ⟨q, hq, hfq⟩ := List.mem_map.mp hp
        by_cases hqD : D.contains q
        · rw [if_pos hqD] at hfq
          rw [← hfq]
          exact hfresh _ (by omega)
        · rw [if_neg hqD] at hfq
          rw [← hfq]
          have h1 := hI.sfree x hxmem
          have h2 : (k + O.indexOf x) ∉ D := hsnotD x hxO (Nat.le_refl x)
          rw [hobs' _, h1]
          simp [h2]
      · rw [hp_out v hv2] at hp
        cases hp

/-- One full step of the restack loop: `_restackonce` succeeds and the
invariant advances. -/
theorem rinv_step (k : Nat) (O : List Nat) (hk : 1 ≤ k) (hnd : O.Nodup)
    (hO : ∀ i ∈ O, i < k) (x : Nat) (R' : List Nat) (σ : Repo)
    (hI : RInv k O (x :: R') σ) :
    ∃ pr σ', _restackonce rebaseModel σ (k + O.indexOf x) = Except.ok (pr, σ') ∧
      RInv k O R' σ' ∧ (R' = [] → ParentStable σ') := by
  rw [restackonce_model, step_prec k O hk hO x R' σ hI]
  by_cases hD : (σ.revsDescMinus [x]).isEmpty
  · rw [if_pos hD]
    have hDnil : σ.revsDescMinus [x] = [] := List.isEmpty_iff.mp hD
    obtain ⟨h1, h2⟩ := rinv_step_keep k O hk hnd hO x R' σ hI hDnil
    exact ⟨none, σ, rfl, h1, h2⟩
  · rw [if_neg hD]
    obtain ⟨h1, h2⟩ := rinv_step_rebase k O hk hnd hO x R' σ hI
    exact ⟨some _, _, rfl, h1, h2⟩

/-- Running the loop body over the remaining targets turns the invariant
into parent-wise stability of the final state. -/
theorem loop_parentStable (k : Nat) (O : List Nat) (hk : 1 ≤ k)
    (hnd : O.Nodup) (hO : ∀ i ∈ O, i < k) :
    ∀ R σ, RInv k O R σ → (R = [] → ParentStable σ) →
      ParentStable (applyTargets rebaseModel σ
        (R.map (fun y => k + O.indexOf y))) := by
  intro R
  induction R with
  | nil =>
    intro σ _ hfin
    simpa only [List.map_nil, applyTargets] using hfin rfl
  | cons x R' ih =>
    intro σ hI hfin
    obtain ⟨pr, σ', hstep, hI', hfin'⟩ := rinv_step k O hk hnd hO x R' σ hI
    rw [List.map_cons]
    have happ : applyTargets rebaseModel σ
        ((k + O.indexOf x) :: R'.map (fun y => k + O.indexOf y)) =
        applyTargets rebaseModel σ' (R'.map (fun y => k + O.indexOf y)) := by
      simp only [applyTargets, hstep]
    rw [happ]
    exact ih σ' hI' hfin'

/-- With the modelled rebase the loop never raises: its final state is the
fold of `_restackonce` over the targets and no error escapes. -/
theorem restackLoop_model (repo0 : Repo) :
    ∀ ts σ, (restackLoop rebaseModel repo0 σ ts).state =
        applyTargets rebaseModel σ ts ∧
      (restackLoop rebaseModel repo0 σ ts).err = none := by
  intro ts
  induction ts with
  | nil =>
    intro σ
    exact ⟨rfl, rfl⟩
  | cons t ts ih =>
    intro σ
    have hok : ∃ p σ', _restackonce rebaseModel σ t = Except.ok (p, σ') := by
      rw [restackonce_model]
      by_cases h : (σ.revsDescMinus (σ.revsAllprecursors t)).isEmpty
      · rw [if_pos h]
        exact ⟨none, σ, rfl⟩
      · rw [if_neg h]
        exact ⟨some _, _, rfl⟩
    obtain ⟨p, σ', hok⟩ := hok
    constructor
    · show (restackLoop rebaseModel repo0 σ (t :: ts)).state = _
      simp only [restackLoop, applyTargets, hok]
      exact (ih σ').1
    · simp only [restackLoop, hok]
      exact (ih σ').2

/-- The target positions of the canonical stack, as a filter of the
amended positions. -/
theorem targetsFrom_zero_eq (k : Nat) (O : List Nat)
    (hs : List.Sorted (· < ·) O) (hnd : O.Nodup) (hO : ∀ i ∈ O, i < k) :
    targetsFrom k O 0 =
      (O.filter (fun y => decide (y + 1 < k))).map (fun y => k + O.indexOf y) := by
  rw [targetsFrom]
  have hr : List.range' 0 (k - 0) = List.range k := by
    rw [Nat.sub_zero, ← List.range_eq_range']
  rw [hr]
  congr 1
  have hperm : List.Perm
      ((List.range k).filter (fun x => decide (x ∈ O) && decide (x + 1 < k)))
      (O.filter (fun y => decide (y + 1 < k))) := by
    apply (List.perm_ext_iff_of_nodup (nodup_filter_range k _)
      (hnd.filter _)).mpr
    intro z
    simp only [List.mem_filter, List.mem_range, Bool.and_eq_true,
      decide_eq_true_eq]
    constructor
    · rintro ⟨h1, h2, h3⟩
      exact ⟨h2, h3⟩
    · rintro ⟨h1, h2⟩
      exact ⟨hO z h1, h1, h2⟩
  exact List.eq_of_perm_of_sorted hperm
    ((sorted_filter_range k _).imp (fun h => Nat.le_of_lt h))
    ((hs.filter _).imp (fun h => Nat.le_of_lt h))

/-- Ancestor search only reads the parent structure. -/
theorem ancAux_congr (σ τ : Repo) (hpar : σ.parentrevs = τ.parentrevs) :
    ∀ f a b, σ.ancAux f a b = τ.ancAux f a b := by
  intro f
  induction f with
  | zero => intro a b; rfl
  | succ f ih =>
    intro a b
    rw [Repo.ancAux, Repo.ancAux, hpar]
    apply any_congr_mem
    intro p _
    rw [ih a p]

/-- Stability is insensitive to the working-directory pointer. -/
theorem stable_wdir_update (σ : Repo) (s : Nat) (h : Stable σ) :
    Stable { σ with wdir := s } := by
  intro v a hv ha
  have hpar : ({ σ with wdir := s } : Repo).parentrevs = σ.parentrevs := rfl
  have hanc : ({ σ with wdir := s } : Repo).isAncestor a v = σ.isAncestor a v := by
    rw [Repo.isAncestor, Repo.isAncestor,
      show ({ σ with wdir := s } : Repo).numRevs = σ.numRevs from rfl]
    exact ancAux_congr _ σ hpar σ.numRevs a v
  have hobs : ∀ r, ({ σ with wdir := s } : Repo).obsB r = σ.obsB r :=
    fun r => rfl
  rw [hobs] at hv
  rw [hanc] at ha
  rw [hobs]
  exact h v a hv ha

/-- Stability of the loop's final state carries over to `restack`'s
result (which may additionally move the working directory). -/
theorem restack_stable_of_loop (rebase : RebaseFn) (repo : Repo)
    (h : Stable (restackLoop rebase repo repo (restackTargets repo)).state) :
    Stable (restack rebase repo).state := by
  unfold restack
  cases hle : (restackLoop rebase repo repo (restackTargets repo)).err with
  | some e => simpa [hle] using h
  | none =>
    simp only [hle]
    cases hgl : ((restackLoop rebase repo repo
        (restackTargets repo)).state.revsAllsuccessors
        (restackLoop rebase repo repo (restackTargets repo)).state.wdir).getLast? with
    | some s =>
      simp only [hgl]
      exact stable_wdir_update _ s h
    | none => simpa [hgl] using h

/-- C1: for every stack `0 ← 1 ← ⋯ ← k-1` in which the changesets at the
positions listed in `O` have been obsoleted, each with the single
successor recorded in the stack state, running `restack` (with the
spec-modelled host rebase) produces a state in which no non-obsolete
changeset has an obsolete ancestor: stability is restored. -/
theorem restack_stability (k : Nat) (O : List Nat) (hk : 1 ≤ k)
    (hs : List.Sorted (· < ·) O) (hO : ∀ i ∈ O, i < k) :
    Stable (restack rebaseModel (mkStack k O)).state := by
  have hnd : O.Nodup := List.Pairwise.imp (fun h => Nat.ne_of_lt h) hs
  have htg : restackTargets (mkStack k O) =
      ((O.filter (fun y => decide (y + 1 < k))).reverse).map
        (fun y => k + O.indexOf y) := by
    rw [restackTargets_mk k O hk hs hnd hO, targetsFrom_zero_eq k O hs hnd hO,
      List.map_reverse]
  have hfin : (O.filter (fun y => decide (y + 1 < k))).reverse = [] →
      ParentStable (mkStack k O) := by
    intro h
    apply parentStable_mk_noTargets k O hO
    rwa [List.reverse_eq_nil_iff] at h
  have hps := loop_parentStable k O hk hnd hO
    ((O.filter (fun y => decide (y + 1 < k))).reverse) (mkStack k O)
    (rinv_init k O hk hs hnd hO) hfin
  apply restack_stable_of_loop
  have hloop := restackLoop_model (mkStack k O)
    (restackTargets (mkStack k O)) (mkStack k O)
  rw [hloop.1, htg]
  exact stable_of_parentStable _ hps

/-- Witness for `restack_stability`: the three-changeset stack with the
middle changeset amended. -/
theorem restack_stability_witness :
    (1 ≤ 3 ∧ List.Sorted (· < ·) [1] ∧ (∀ i ∈ [1], i < 3)) ∧
      Stable (restack rebaseModel (mkStack 3 [1])).state :=
  ⟨⟨by decide, by decide, by decide⟩,
    restack_stability 3 [1] (by decide) (by decide) (by decide)⟩

end Sapling
